import Mathlib

/-!
Verification of the build-sqlite read-only SQLite query engine.

The Rust sources are shallowly embedded as follows:
* byte buffers (Vec<u8>, &[u8]) are List Nat with each element a byte value;
* Rust String values are modelled by their byte sequences (ByteStr); the
  from_utf8_lossy decoding is modelled as the identity on the byte sequence,
  which is exact for valid UTF-8 input;
* u64 / i64 arithmetic is Nat / Int arithmetic with explicit reduction
  modulo 2 ^ 64 where the Rust code can wrap;
* fallible functions return Option / Except, and a Rust panic is modelled
  as an explicit error value;
* the paged B-trees are modelled as inductive trees whose leaves hold the
  parsed cells and whose interior nodes hold the parsed interior cells
  (left-child page number, key) together with the child subtree reached
  through that page number, plus the rightmost pointer and its subtree.
-/

/-- Byte-sequence model of Rust String / &str and &[u8] values. -/
abbrev ByteStr := List Nat

/-- Bytes of an ASCII string literal (used for the literals of the source). -/
def bytes (s : String) : ByteStr := s.toList.map Char.toNat

/-- The u64 modulus. -/
def U64 : Nat := 2 ^ 64

/-- Model of usize::MAX (64-bit target), the sentinel used by Record::read_string. -/
def usizeMax : Nat := 2 ^ 64 - 1

/-- Indexing data[i] after a bounds check, as the Rust code does. -/
def byteAt (data : List Nat) (i : Nat) : Nat := data.getD i 0

/-! ## Varint codec (src/db/varint.rs) -/

/-- Loop body of read_varint: iterates i over 0..9 (fuel counts the remaining
iterations, starting at 9).  For bytes 1..8 the low 7 bits are shifted into the
accumulator and a clear high bit stops the loop; the 9th byte contributes all
8 bits.  Mirrors src/db/varint.rs read_varint. -/
def rvGo (data : List Nat) (pos : Nat) : Nat → Nat → Nat → Nat → Nat × Nat
  | 0, _, value, bytesRead => (value, bytesRead)
  | fuel + 1, i, value, bytesRead =>
    let byte := byteAt data (pos + i)
    let bytesRead := bytesRead + 1
    if i == 8 then
      (((value <<< 8) % U64) ||| byte, bytesRead)
    else
      let value := ((value <<< 7) % U64) ||| (byte &&& 127)
      if byte &&& 128 == 0 then (value, bytesRead)
      else rvGo data pos fuel (i + 1) value bytesRead

/-- Read a varint from a byte slice starting at the given position; returns
(value, number of bytes read).  Mirrors src/db/varint.rs read_varint. -/
def read_varint (data : List Nat) (pos : Nat) : Nat × Nat :=
  rvGo data pos 9 0 0 0

/-- Modelled from the spec: the repository has no varint encoder (only the
decoder exists, in src/db/varint.rs), so the encoder of claim C6 is taken from
the format description: 1 to 9 bytes; for bytes 1..8 the high bit is a
continuation flag and the low 7 bits carry data; a 9th byte carries all 8 bits.
sevenGroupsAux produces the big-endian base-128 digits of n (fuel-bounded so
that it is structurally recursive). -/
def sevenGroupsAux : Nat → Nat → List Nat → List Nat
  | 0, _, acc => acc
  | fuel + 1, n, acc =>
    if n < 128 then n :: acc else sevenGroupsAux fuel (n / 128) (n % 128 :: acc)

/-- Big-endian base-128 digit list of n (for n < 128 ^ 9). -/
def sevenGroups (n : Nat) : List Nat := sevenGroupsAux 9 n []

/-- Set the continuation bit on every byte except the last. -/
def markCont : List Nat → List Nat
  | [] => []
  | [d] => [d]
  | d :: rest => (d + 128) :: markCont rest

/-- The eight fixed-width 7-bit groups of a value below 2 ^ 56, big-endian. -/
def fixedGroups8 (n : Nat) : List Nat :=
  [n / 128 ^ 7 % 128, n / 128 ^ 6 % 128, n / 128 ^ 5 % 128, n / 128 ^ 4 % 128,
   n / 128 ^ 3 % 128, n / 128 ^ 2 % 128, n / 128 % 128, n % 128]

/-- Modelled from the spec: SQLite varint encoding of an unsigned 64-bit value.
Values below 2 ^ 56 use the minimal run of 7-bit groups with continuation bits;
larger values use 8 continuation bytes carrying bits 63..8 followed by a 9th
byte carrying the low 8 bits. -/
def encodeVarint (x : Nat) : List Nat :=
  if x < 2 ^ 56 then markCont (sevenGroups x)
  else ((fixedGroups8 (x >>> 8)).map (fun d => d + 128)) ++ [x % 256]

/-! ## Serial-type codec (src/db/page/record.rs) -/

/-- Size in bytes of a column value for a serial type code.
Mirrors src/db/page/record.rs get_column_size; the two guard arms of the Rust
match cover every value from 12 upward, so the trailing catch-all of the
source is unreachable. -/
def get_column_size (serialType : Nat) : Nat :=
  if serialType = 0 then 0
  else if serialType = 1 then 1
  else if serialType = 2 then 2
  else if serialType = 3 then 3
  else if serialType = 4 then 4
  else if serialType = 5 then 6
  else if serialType = 6 then 8
  else if serialType = 7 then 8
  else if serialType = 8 then 0
  else if serialType = 9 then 0
  else if serialType = 10 ∨ serialType = 11 then 0
  else if serialType % 2 = 0 then (serialType - 12) / 2
  else (serialType - 13) / 2

/-- Extract a text value: only odd serial types at least 13; the byte slice of
length (n-13)/2 is returned (lossy UTF-8 decoding modelled as identity on the
bytes).  Mirrors src/db/page/record.rs extract_text_from_serial_type,
including its bounds check returning None. -/
def extract_text_from_serial_type (serialType : Nat) (data : List Nat) (pos : Nat) :
    Option ByteStr :=
  if 13 ≤ serialType ∧ serialType % 2 = 1 then
    let textSize := (serialType - 13) / 2
    if pos + textSize > data.length then none
    else some ((data.drop pos).take textSize)
  else none

/-- Value of an i8 with the given bit pattern. -/
def i8ofBits (n : Nat) : Int := if n < 2 ^ 7 then (n : Int) else (n : Int) - 2 ^ 8

/-- Value of an i16 with the given bit pattern. -/
def i16ofBits (n : Nat) : Int := if n < 2 ^ 15 then (n : Int) else (n : Int) - 2 ^ 16

/-- Value of an i32 with the given bit pattern. -/
def i32ofBits (n : Nat) : Int := if n < 2 ^ 31 then (n : Int) else (n : Int) - 2 ^ 32

/-- Value of an i64 with the given bit pattern. -/
def i64ofBits (n : Nat) : Int := if n < 2 ^ 63 then (n : Int) else (n : Int) - 2 ^ 64

/-- Extract an integer value for a serial type code.  NULL (0) is decoded as 0,
codes 1..6 as big-endian two's-complement integers (with the explicit
sign-extension ORs of the source for the 24- and 48-bit widths), 8 and 9 as the
constants 0 and 1; everything else is None.  Mirrors
src/db/page/record.rs extract_int_from_serial_type, including bounds checks. -/
def extract_int_from_serial_type (serialType : Nat) (data : List Nat) (pos : Nat) :
    Option Int :=
  match serialType with
  | 0 => some 0
  | 1 =>
    if pos ≥ data.length then none
    else some (i8ofBits (byteAt data pos))
  | 2 =>
    if pos + 2 > data.length then none
    else some (i16ofBits ((byteAt data pos <<< 8) ||| byteAt data (pos + 1)))
  | 3 =>
    if pos + 3 > data.length then none
    else
      let value := (byteAt data pos <<< 16) ||| (byteAt data (pos + 1) <<< 8) |||
        byteAt data (pos + 2)
      if byteAt data pos &&& 128 ≠ 0 then some (i32ofBits (value ||| 0xFF000000))
      else some (i32ofBits value)
  | 4 =>
    if pos + 4 > data.length then none
    else some (i32ofBits ((byteAt data pos <<< 24) ||| (byteAt data (pos + 1) <<< 16) |||
      (byteAt data (pos + 2) <<< 8) ||| byteAt data (pos + 3)))
  | 5 =>
    if pos + 6 > data.length then none
    else
      let value := (byteAt data pos <<< 40) ||| (byteAt data (pos + 1) <<< 32) |||
        (byteAt data (pos + 2) <<< 24) ||| (byteAt data (pos + 3) <<< 16) |||
        (byteAt data (pos + 4) <<< 8) ||| byteAt data (pos + 5)
      if byteAt data pos &&& 128 ≠ 0 then some (i64ofBits (value ||| 0xFFFF000000000000))
      else some (i64ofBits value)
  | 6 =>
    if pos + 8 > data.length then none
    else some (i64ofBits ((byteAt data pos <<< 56) ||| (byteAt data (pos + 1) <<< 48) |||
      (byteAt data (pos + 2) <<< 40) ||| (byteAt data (pos + 3) <<< 32) |||
      (byteAt data (pos + 4) <<< 24) ||| (byteAt data (pos + 5) <<< 16) |||
      (byteAt data (pos + 6) <<< 8) ||| byteAt data (pos + 7)))
  | 8 => some 0
  | 9 => some 1
  | _ => none

/-- Big-endian two's-complement reading of a width-bit bit pattern, the
reference value for claim C7 (the spec phrase: interpreting the payload bytes
as a big-endian two's-complement integer of that width sign-extended to
64 bits). -/
def twosComplement (width : Nat) (n : Nat) : Int :=
  if n < 2 ^ (width - 1) then (n : Int) else (n : Int) - 2 ^ width

/-! ## Decimal rendering (Rust ToString on integers) -/

/-- Fuel-bounded big-endian decimal digits accumulator. -/
def natToDecimalAux : Nat → Nat → List Nat → List Nat
  | 0, _, acc => acc
  | fuel + 1, n, acc =>
    if n < 10 then (48 + n) :: acc else natToDecimalAux fuel (n / 10) ((48 + n % 10) :: acc)

/-- ASCII decimal rendering of a Nat. -/
def natToDecimal (n : Nat) : ByteStr := natToDecimalAux (n + 1) n []

/-- ASCII decimal rendering of an Int (Rust i64::to_string). -/
def intToDecimal (i : Int) : ByteStr :=
  if i < 0 then 45 :: natToDecimal (-i).toNat else natToDecimal i.toNat

/-! ## Record (src/db/page/record.rs) -/

/-- A parsed SQLite record from a leaf-table cell: the serial types from the
record header, the per-column offsets into the copied data portion, the data
bytes, and the rowid. -/
structure Record where
  serialTypes : List Nat
  columnOffsets : List Nat
  data : List Nat
  rowid : Int
deriving Repr, DecidableEq

/-- Consistency of a parsed record as established by Record::parse: one offset
per serial type, and each column body lies inside the data portion. -/
def wfRecord (r : Record) : Bool :=
  r.columnOffsets.length == r.serialTypes.length &&
  (List.zip r.serialTypes r.columnOffsets).all
    (fun p => decide (p.2 + get_column_size p.1 ≤ r.data.length))

/-- Read a column value as a string: the rowid for the usize::MAX sentinel,
None when the column index is out of range, else text first, else the decimal
rendering of the extracted integer, else None.  Mirrors
src/db/page/record.rs Record::read_string. -/
def Record.read_string (r : Record) (columnIndex : Nat) : Option ByteStr :=
  if columnIndex = usizeMax then some (intToDecimal r.rowid)
  else if columnIndex ≥ r.serialTypes.length then none
  else
    let serialType := r.serialTypes.getD columnIndex 0
    let offset := r.columnOffsets.getD columnIndex 0
    match extract_text_from_serial_type serialType r.data offset with
    | some text => some text
    | none =>
      match extract_int_from_serial_type serialType r.data offset with
      | some intVal => some (intToDecimal intVal)
      | none => none

/-- Read a column value as an integer.  Mirrors Record::read_int. -/
def Record.read_int (r : Record) (columnIndex : Nat) : Option Int :=
  if columnIndex ≥ r.serialTypes.length then none
  else
    extract_int_from_serial_type (r.serialTypes.getD columnIndex 0) r.data
      (r.columnOffsets.getD columnIndex 0)

/-- Read multiple columns as strings; missing values become the empty string.
Mirrors Record::read_strings. -/
def Record.read_strings (r : Record) (columnIndices : List Nat) : List ByteStr :=
  columnIndices.map (fun idx => (r.read_string idx).getD [])

/-! ## String helpers used by the schema / query code -/

/-- Rust str::starts_with: p is an initial run of s. -/
def startsWith (s p : ByteStr) : Bool :=
  match s, p with
  | _, [] => true
  | [], _ :: _ => false
  | a :: s, b :: p => a == b && startsWith s p

/-- ASCII lowercase of one byte. -/
def lowerByte (b : Nat) : Nat := if 65 ≤ b ∧ b ≤ 90 then b + 32 else b

/-- Rust str::eq_ignore_ascii_case on byte strings. -/
def eqIgnoreAsciiCase (a b : ByteStr) : Bool :=
  a.map lowerByte == b.map lowerByte

/-- ASCII lowercase of a byte string (Rust str::to_lowercase on ASCII input). -/
def lowerBytes (s : ByteStr) : ByteStr := s.map lowerByte

/-- Whitespace test used to model Rust trim / split_whitespace (the ASCII
whitespace characters; the claims only involve ASCII input). -/
def isWsByte (b : Nat) : Bool := b == 32 || b == 9 || b == 10 || b == 13

/-- Rust str::trim on a byte string. -/
def trimBytes (s : ByteStr) : ByteStr :=
  ((s.dropWhile isWsByte).reverse.dropWhile isWsByte).reverse

/-- Byte-wise lexicographic comparison, the order Rust uses for String / &str
comparison (a ≤ b). -/
def strLe (a b : ByteStr) : Bool :=
  match a, b with
  | [], _ => true
  | _ :: _, [] => false
  | x :: a, y :: b => if x < y then true else if y < x then false else strLe a b

/-! ## WHERE-clause parser (src/db/schema/schema.rs parse_where_clause) -/

/-- The single-quote character (written via its code so that the source text
stays free of quote literals). -/
def squote : Char := Char.ofNat 39

/-- Rust char-split: split the character list at every occurrence of sep; n
occurrences yield n+1 pieces.  Models str::split used by parse_where_clause. -/
def splitChar (sep : Char) : List Char → List (List Char)
  | [] => [[]]
  | c :: rest =>
    if c == sep then [] :: splitChar sep rest
    else
      match splitChar sep rest with
      | [] => [[c]]
      | p :: ps => (c :: p) :: ps

/-- Whitespace test for chars (ASCII model of char::is_whitespace). -/
def isWsChar (c : Char) : Bool := isWsByte c.toNat

/-- Rust str::trim on a character list. -/
def trimChars (s : List Char) : List Char :=
  ((s.dropWhile isWsChar).reverse.dropWhile isWsChar).reverse

/-- Outcomes of parse_where_clause: the bail for a malformed clause, or the
panic raised by the byte-range slice value_part[1..value_part.len()-1] when
the trimmed value is exactly one single-quote character (start index 1 exceeds
end index 0). -/
inductive WhereErr where
  | malformed
  | panicked
deriving Repr, DecidableEq

/-- Parse a simple WHERE clause of the form column = value.  Splits on the
equals sign, requires exactly two parts, trims both sides, and removes the
surrounding single quotes from the value when it both begins and ends with
one.  Mirrors src/db/schema/schema.rs parse_where_clause; the Rust slice
expression panics when the trimmed value is the single character quote, which
is modelled by the explicit panicked error. -/
def parse_where_clause (whereClause : List Char) : Except WhereErr (List Char × List Char) :=
  match splitChar '=' whereClause with
  | [lhs, rhs] =>
    let column := trimChars lhs
    let valuePart := trimChars rhs
    if valuePart.head? == some squote && valuePart.getLast? == some squote then
      if valuePart.length == 1 then .error .panicked
      else .ok (column, (valuePart.drop 1).dropLast)
    else .ok (column, valuePart)
  | _ => .error .malformed

/-! ## DDL column extractor (src/db/schema/schema.rs parse_column_names) -/

/-- Index of the last occurrence of b in l (Rust str::rfind). -/
def rfindIdx (l : List Nat) (b : Nat) : Option Nat :=
  match (l.reverse.findIdx? (fun x => x == b)) with
  | none => none
  | some j => some (l.length - 1 - j)

/-- Parse column names from a CREATE TABLE statement: the text between the
first opening and the last closing parenthesis, split on commas, trimmed, and
reduced to the first whitespace-delimited token of each piece (empty pieces
are dropped).  Mirrors src/db/schema/schema.rs parse_column_names. -/
def parse_column_names (createSql : ByteStr) : List ByteStr :=
  match createSql.findIdx? (fun x => x == 40) with
  | none => []
  | some i =>
    match rfindIdx createSql 41 with
    | none => []
    | some e =>
      let inner := (createSql.drop (i + 1)).take (e - (i + 1))
      (inner.splitOn 44).filterMap (fun colDef =>
        let t := trimBytes colDef
        match t with
        | [] => none
        | _ => some (t.takeWhile (fun b => !isWsByte b)))

/-! ## Schema catalog (src/db/schema/schema.rs) -/

/-- An entry of the sqlite_schema table: type, tbl_name, rootpage, sql
(column ordinals 0, 2, 3, 4). -/
structure SchemaEntry where
  entryType : ByteStr
  tblName : ByteStr
  rootpage : Nat
  sql : ByteStr
deriving Repr, DecidableEq

/-- Wrapping cast from i64 to u32 (Rust as-cast), used for rootpage. -/
def u32ofInt (i : Int) : Nat := (i % 2 ^ 32).toNat

/-- Parse a schema entry from a record: read_string of columns 0 and 2 must
both succeed, rootpage is read_int of column 3 (default 0) cast to u32, sql is
read_string of column 4 (default empty).  Mirrors SchemaEntry::from_record. -/
def SchemaEntry.from_record (r : Record) : Option SchemaEntry :=
  match r.read_string 0, r.read_string 2 with
  | some entryType, some tblName =>
    some ⟨entryType, tblName, u32ofInt ((r.read_int 3).getD 0), (r.read_string 4).getD []⟩
  | _, _ => none

/-- User tables are the entries of type table whose tbl_name does not start
with sqlite_.  Mirrors SchemaEntry::is_user_table. -/
def SchemaEntry.is_user_table (e : SchemaEntry) : Bool :=
  e.entryType == bytes "table" && !(startsWith e.tblName (bytes "sqlite_"))

/-- Read all schema entries from the parsed records of page 1.  Mirrors
read_schema (page access is abstracted to the list of parsed cell records). -/
def read_schema (records : List Record) : List SchemaEntry :=
  records.filterMap SchemaEntry.from_record

/-- User table names.  Mirrors read_table_names. -/
def read_table_names (records : List Record) : List ByteStr :=
  ((read_schema records).filter SchemaEntry.is_user_table).map SchemaEntry.tblName

/-- Output line of the table command: the user table names joined by single
spaces (commands.rs table prints table_names.join with a space). -/
def tableCommandOutput (records : List Record) : ByteStr :=
  List.intercalate [32] (read_table_names records)

/-! ## Command dispatcher (src/main.rs) -/

/-- The actions the dispatcher of main.rs can route to: the only two command
strings it accepts are .dbinfo and .table.  There is no arm for SQL queries:
commands::sql exists in commands.rs but main never calls it. -/
inductive CliAction where
  | dbinfo
  | table
deriving Repr, DecidableEq

/-- The match on args[2] in main.rs: .dbinfo and .table dispatch, every other
command string bails with the invalid-command diagnostic. -/
def mainDispatch (command : List Char) : Except (List Char) CliAction :=
  if command = ".dbinfo".toList then .ok .dbinfo
  else if command = ".table".toList then .ok .table
  else .error ("Missing or invalid command passed: ".toList ++ command)

/-! ## Table B-trees (src/db/schema/schema.rs) -/

/-- A table B-tree.  A leaf holds its parsed cell records in cell order; an
interior page holds, per cell, the left-child page number and key rowid from
parse_interior_cell together with the subtree behind that page number, plus
the rightmost pointer and its subtree (rightmost_pointer is always present on
an interior page). -/
inductive TableBtree where
  | leaf (cells : List Record)
  | interior (cells : List (Nat × Int × TableBtree)) (rmPage : Nat) (rmChild : TableBtree)

mutual
/-- Collect all leaf records in traversal order: a leaf contributes its cells;
an interior page contributes each cell's left child in order (children with a
zero page number are skipped with a warning), then the rightmost child (also
skipped when zero).  Mirrors traverse_btree_table. -/
def traverse_btree_table : TableBtree → List Record
  | .leaf cells => cells
  | .interior cells rmPage rmChild =>
      travCells cells ++ (if rmPage ≠ 0 then traverse_btree_table rmChild else [])
/-- Traversal of the interior cells of one page, in cell order. -/
def travCells : List (Nat × Int × TableBtree) → List Record
  | [] => []
  | (page, _, child) :: rest =>
      (if page ≠ 0 then traverse_btree_table child else []) ++ travCells rest
end

/-- Row count of a table: collect all records from the B-tree and take the
length.  Mirrors count_table_rows (table lookup through the schema is
abstracted to the root subtree). -/
def count_table_rows (t : TableBtree) : Nat := (traverse_btree_table t).length

mutual
/-- All leaf cell records of the tree, with no zero-page skipping: the domain
over which presence of a rowid is stated. -/
def tableRecords : TableBtree → List Record
  | .leaf cells => cells
  | .interior cells _ rmChild => tableRecordsCells cells ++ tableRecords rmChild
/-- Leaf cell records below the interior cells of one page. -/
def tableRecordsCells : List (Nat × Int × TableBtree) → List Record
  | [] => []
  | (_, _, child) :: rest => tableRecords child ++ tableRecordsCells rest
end

mutual
/-- Find a record by rowid: linear scan on a leaf; on an interior page descend
the left child of the first cell whose key is at least the target, or the
rightmost child when no such cell exists.  Mirrors find_record_by_rowid
(which returns the containing page buffer and cell offset; the model returns
the parsed record of that cell). -/
def find_record_by_rowid (targetRowid : Int) : TableBtree → Option Record
  | .leaf cells => cells.find? (fun r => r.rowid == targetRowid)
  | .interior cells _ rmChild => frbrCells targetRowid cells rmChild
termination_by t => sizeOf t
decreasing_by all_goals (simp_wf; try omega)
/-- Interior-cell walk of find_record_by_rowid: first cell with
target ≤ key wins; otherwise fall through to the rightmost child. -/
def frbrCells (targetRowid : Int) :
    List (Nat × Int × TableBtree) → TableBtree → Option Record
  | [], rmChild => find_record_by_rowid targetRowid rmChild
  | (_, key, child) :: rest, rmChild =>
      if targetRowid ≤ key then find_record_by_rowid targetRowid child
      else frbrCells targetRowid rest rmChild
termination_by cells rmChild => sizeOf cells + sizeOf rmChild
decreasing_by all_goals (simp_wf; try omega)
end

/-- Strict lower bound test against an optional bound. -/
def loLt : Option Int → Int → Bool
  | none, _ => true
  | some l, x => decide (l < x)

mutual
/-- Well-formedness of a table B-tree below a strict lower bound: every rowid
exceeds the bound, each interior cell bounds its subtree by its key, keys
ascend strictly, and the rightmost subtree lies strictly above the last key.
This is the ordering invariant of the file format (spec: rowids are
monotonically ordered within a table B-tree) under which claim C5 is stated. -/
def wfTbl : Option Int → TableBtree → Bool
  | lo, .leaf cells => cells.all (fun r => loLt lo r.rowid)
  | lo, .interior cells _ rmChild => wfTblCells lo cells rmChild
termination_by _ t => sizeOf t
decreasing_by all_goals (simp_wf; try omega)
/-- Bound threading along the interior cells of one page. -/
def wfTblCells : Option Int → List (Nat × Int × TableBtree) → TableBtree → Bool
  | lo, [], rmChild => wfTbl lo rmChild
  | lo, (_, key, child) :: rest, rmChild =>
      loLt lo key && wfTbl lo child &&
      (tableRecords child).all (fun r => decide (r.rowid ≤ key)) &&
      wfTblCells (some key) rest rmChild
termination_by _ cells rmChild => sizeOf cells + sizeOf rmChild
decreasing_by all_goals (simp_wf; try omega)
end

/-! ## Column selection (src/db/schema/schema.rs select_columns) -/

/-- Resolve each requested column name to its position in the CREATE TABLE
column list, case-insensitively; a missing column is an error.  Mirrors the
column_indices computation of select_columns, which has no special case for
a column named id (unlike select_columns_with_filter). -/
def resolveColumns (sql : ByteStr) (columnNames : List ByteStr) :
    Except ByteStr (List Nat) :=
  let columns := parse_column_names sql
  columnNames.mapM (fun colName =>
    match columns.findIdx? (fun c => eqIgnoreAsciiCase c colName) with
    | some j => Except.ok j
    | none => Except.error (bytes "Column not found: " ++ colName))

/-- Select the requested columns from every record of the table, in traversal
order.  Mirrors select_columns (schema lookup abstracted to the CREATE sql
and root subtree of the table). -/
def select_columns (sql : ByteStr) (t : TableBtree) (columnNames : List ByteStr) :
    Except ByteStr (List (List ByteStr)) :=
  match resolveColumns sql columnNames with
  | .error e => .error e
  | .ok columnIndices =>
      .ok ((traverse_btree_table t).map (fun r => r.read_strings columnIndices))

/-! ## Index B-trees (src/db/schema/schema.rs search_index_btree) -/

/-- A parsed index cell: the indexed column values and the trailing rowid.
Mirrors IndexCell of src/db/page/record.rs. -/
structure IndexCell where
  values : List ByteStr
  rowid : Int
deriving Repr, DecidableEq

/-- An index B-tree.  A leaf holds its parsed index cells; an interior page
holds, per cell, the left-child page number, the result of
parse_interior_index_cell on that cell (some key when the first indexed
column is text and in bounds, none for the Err case) and the subtree behind
the page number, plus the rightmost pointer and its subtree. -/
inductive IndexBtree where
  | leaf (cells : List IndexCell)
  | interior (cells : List (Nat × Option ByteStr × IndexBtree)) (rmPage : Nat)
      (rmChild : IndexBtree)

/-- Selection of an interior-index cell child during search: when the key
parsed, descend iff the search value is at most the key; when parsing failed,
descend iff the left-child page number is nonzero.  Mirrors the per-cell
logic of search_index_btree. -/
def icellSelected (v : ByteStr) (cell : Nat × Option ByteStr × IndexBtree) : Bool :=
  match cell with
  | (_, some key, _) => strLe v key
  | (page, none, _) => page != 0

/-- The last-cell condition of search_index_btree under which the rightmost
child is searched: the last cell parsed to a key and the search value is at
least that key. -/
def rmPrimary (v : ByteStr) (cells : List (Nat × Option ByteStr × IndexBtree)) : Bool :=
  match cells.getLast? with
  | some (_, some key, _) => strLe key v
  | _ => false

mutual
/-- Search an index B-tree for a value, returning the rowids of the matching
leaf cells.  On a leaf, keep the cells whose first value equals the search
value.  On an interior page, search every cell child the value could reach
(value ≤ key), search the rightmost child when the value is at least the last
key, and fall back to the rightmost child when nothing was selected; results
are concatenated in that order.  Mirrors search_index_btree. -/
def search_index_btree (v : ByteStr) : IndexBtree → List Int
  | .leaf cells =>
      (cells.filter (fun c => c.values.head? == some v)).map IndexCell.rowid
  | .interior cells _ rmChild =>
      sibCells v cells ++
        (if rmPrimary v cells || cells.all (fun c => !icellSelected v c) then
          search_index_btree v rmChild
        else [])
/-- Search of the selected children among the interior cells, in cell order. -/
def sibCells (v : ByteStr) : List (Nat × Option ByteStr × IndexBtree) → List Int
  | [] => []
  | cell :: rest =>
      (if icellSelected v cell then search_index_btree v cell.2.2 else []) ++
        sibCells v rest
end

mutual
/-- All leaf index cells of the tree in traversal order: the domain over
which completeness of the search is stated. -/
def idxEntries : IndexBtree → List IndexCell
  | .leaf cells => cells
  | .interior cells _ rmChild => idxEntriesCells cells ++ idxEntries rmChild
/-- Leaf index cells below the interior cells of one page. -/
def idxEntriesCells : List (Nat × Option ByteStr × IndexBtree) → List IndexCell
  | [] => []
  | (_, _, child) :: rest => idxEntries child ++ idxEntriesCells rest
end

/-- The first indexed value of a leaf cell is at most k (vacuous for an empty
value list). -/
def headLe (c : IndexCell) (k : ByteStr) : Bool :=
  match c.values.head? with
  | some s => strLe s k
  | none => true

/-- The first indexed value of a leaf cell is at least k (vacuous for an
empty value list). -/
def headGe (c : IndexCell) (k : ByteStr) : Bool :=
  match c.values.head? with
  | some s => strLe k s
  | none => true

mutual
/-- Well-formedness of an index B-tree over text keys: every interior cell
key parsed as text, the entries below each cell are bounded above by its key,
and the entries below the rightmost child are bounded below by the last key.
This is the ordering invariant of the file format under which claim C4 is
stated. -/
def wfIdx : IndexBtree → Bool
  | .leaf _ => true
  | .interior cells _ rmChild =>
      wfIdxCells cells && wfIdx rmChild &&
      (match cells.getLast? with
       | none => true
       | some (_, none, _) => false
       | some (_, some key, _) => (idxEntries rmChild).all (fun c => headGe c key))
/-- Per-cell well-formedness along the interior cells of one page. -/
def wfIdxCells : List (Nat × Option ByteStr × IndexBtree) → Bool
  | [] => true
  | (_, none, _) :: _ => false
  | (_, some key, child) :: rest =>
      wfIdx child && (idxEntries child).all (fun c => headLe c key) && wfIdxCells rest
end

/-! ## General helper lemmas -/

/-- Bit-disjoint OR is addition: ORing low bits below a left shift. -/
theorem lor_small {k a d : Nat} (h : d < 2 ^ k) : (a <<< k) ||| d = a <<< k + d := by
  apply Nat.eq_of_testBit_eq
  intro i
  rw [Nat.testBit_lor, Nat.shiftLeft_eq, Nat.mul_comm, Nat.testBit_mul_pow_two_add a h i,
    Nat.testBit_mul_pow_two]
  by_cases hik : i < k
  · have hn : ¬ k ≤ i := by omega
    simp [hik, hn]
  · have hge : k ≤ i := by omega
    have hd : d.testBit i = false :=
      Nat.testBit_lt_two_pow (lt_of_lt_of_le h (Nat.pow_le_pow_right (by omega) hge))
    simp [hik, hge, hd]

/-- Multiplicative form of lor_small. -/
theorem lor_mul_add {k a d : Nat} (h : d < 2 ^ k) : (a * 2 ^ k) ||| d = a * 2 ^ k + d := by
  have := lor_small (k := k) (a := a) h
  rwa [Nat.shiftLeft_eq] at this

/-- Masking with 127 is reduction mod 128. -/
theorem and_127 (x : Nat) : x &&& 127 = x % 128 := by
  have h := Nat.and_pow_two_sub_one_eq_mod x 7
  norm_num at h
  exact h

/-- A value below 128 has a clear continuation bit. -/
theorem and_128_low {d : Nat} (h : d < 128) : d &&& 128 = 0 := by
  have h2 : d &&& 2 ^ 7 = (d.testBit 7).toNat * 2 ^ 7 := Nat.and_two_pow d 7
  have h3 : d.testBit 7 = false := Nat.testBit_lt_two_pow (by omega)
  rw [h3] at h2
  simpa using h2

/-- A value of the form d + 128 with d below 128 has a set continuation bit. -/
theorem and_128_high {d : Nat} (h : d < 128) : (d + 128) &&& 128 = 128 := by
  have h2 : (d + 128) &&& 2 ^ 7 = ((d + 128).testBit 7).toNat * 2 ^ 7 :=
    Nat.and_two_pow (d + 128) 7
  have h3 : (d + 128).testBit 7 = true := by
    have h4 : (2 ^ 7 * 1 + d).testBit 7 = if 7 < 7 then d.testBit 7 else Nat.testBit 1 0 :=
      Nat.testBit_mul_pow_two_add 1 (by omega) 7
    norm_num at h4
    have h5 : d + 128 = 2 ^ 7 * 1 + d := by omega
    rw [h5]
    simpa using h4
  rw [h3] at h2
  simpa using h2

/-- Bound access of wfRecord: each column body fits in the data portion. -/
theorem wfRecord_bound {r : Record} (hwf : wfRecord r = true) {i : Nat}
    (hi : i < r.serialTypes.length) :
    r.columnOffsets.getD i 0 + get_column_size (r.serialTypes.getD i 0) ≤ r.data.length := by
  unfold wfRecord at hwf
  rw [Bool.and_eq_true] at hwf
  obtain ⟨hlen, hall⟩ := hwf
  rw [beq_iff_eq] at hlen
  rw [List.all_eq_true] at hall
  have hio : i < r.columnOffsets.length := by omega
  have hiz : i < (List.zip r.serialTypes r.columnOffsets).length := by
    rw [List.length_zip]; omega
  have hmem : (r.serialTypes.getD i 0, r.columnOffsets.getD i 0) ∈
      List.zip r.serialTypes r.columnOffsets := by
    have hget : (List.zip r.serialTypes r.columnOffsets)[i] =
        (r.serialTypes[i], r.columnOffsets[i]) := List.getElem_zip
    rw [List.getD_eq_getElem _ _ hi, List.getD_eq_getElem _ _ hio, ← hget]
    exact List.getElem_mem hiz
  have := hall _ hmem
  simpa using this

/-- Evaluation shape of read_string for an ordinary in-range column index. -/
theorem read_string_eval (r : Record) (i : Nat) (hmax : i ≠ usizeMax)
    (hi : i < r.serialTypes.length) :
    r.read_string i =
      match extract_text_from_serial_type (r.serialTypes.getD i 0) r.data
          (r.columnOffsets.getD i 0) with
      | some text => some text
      | none =>
        match extract_int_from_serial_type (r.serialTypes.getD i 0) r.data
            (r.columnOffsets.getD i 0) with
        | some v => some (intToDecimal v)
        | none => none := by
  unfold Record.read_string
  rw [if_neg hmax, if_neg (by omega)]

/-- Text extraction fails for any serial type below 13. -/
theorem extract_text_small {c : Nat} (hc : c < 13) (data : List Nat) (pos : Nat) :
    extract_text_from_serial_type c data pos = none := by
  unfold extract_text_from_serial_type
  rw [if_neg]
  omega

/-- A column of serial type 0 reads as the decimal string 0: the NULL branch
of extract_int_from_serial_type yields the integer 0, which read_string
renders in decimal. -/
theorem read_string_serial_zero {r : Record} {i : Nat} (hmax : i ≠ usizeMax)
    (hi : i < r.serialTypes.length) (hst : r.serialTypes.getD i 0 = 0) :
    r.read_string i = some [48] := by
  rw [read_string_eval r i hmax hi, hst, extract_text_small (by omega)]
  simp only [extract_int_from_serial_type]
  decide

/-- Integer extraction succeeds for each integer serial-type code when the
column body fits. -/
theorem extract_int_code_ok {c : Nat} (hc : c ∈ ([1, 2, 3, 4, 5, 6, 8, 9] : List Nat))
    (data : List Nat) (pos : Nat) (hb : pos + get_column_size c ≤ data.length) :
    ∃ v, extract_int_from_serial_type c data pos = some v := by
  simp only [List.mem_cons, List.not_mem_nil, or_false] at hc
  rcases hc with h | h | h | h | h | h | h | h <;> subst h <;>
    norm_num [get_column_size] at hb <;>
    simp only [extract_int_from_serial_type]
  · rw [if_neg (by omega)]
    exact ⟨_, rfl⟩
  · rw [if_neg (by omega)]
    exact ⟨_, rfl⟩
  · rw [if_neg (by omega)]
    by_cases h0 : byteAt data pos &&& 128 ≠ 0
    · rw [if_pos h0]; exact ⟨_, rfl⟩
    · rw [if_neg h0]; exact ⟨_, rfl⟩
  · rw [if_neg (by omega)]
    exact ⟨_, rfl⟩
  · rw [if_neg (by omega)]
    by_cases h0 : byteAt data pos &&& 128 ≠ 0
    · rw [if_pos h0]; exact ⟨_, rfl⟩
    · rw [if_neg h0]; exact ⟨_, rfl⟩
  · rw [if_neg (by omega)]
    exact ⟨_, rfl⟩
  · exact ⟨_, rfl⟩
  · exact ⟨_, rfl⟩

/-! ## Claim C1 -/

/-- C1: the claim says a command argument that does not begin with a dot is
routed to the query planner and executed.  In the code, the dispatcher of
main.rs has arms only for .dbinfo and .table: every other command string, in
particular every command that does not begin with a dot, is rejected with the
invalid-command diagnostic, and commands::sql (which implements exactly the
routing the spec describes) is never called by main. -/
theorem c1_nondot_command_rejected (cmd : List Char) (h : cmd.head? ≠ some '.') :
    mainDispatch cmd = .error ("Missing or invalid command passed: ".toList ++ cmd) := by
  have h1 : cmd ≠ ".dbinfo".toList := fun he => h (by rw [he]; decide)
  have h2 : cmd ≠ ".table".toList := fun he => h (by rw [he]; decide)
  unfold mainDispatch
  rw [if_neg h1, if_neg h2]

/-- C1 witness: a SELECT command (taken from the spec scenarios) does not
begin with a dot, and the dispatcher rejects it. -/
theorem c1_witness :
    ("SELECT name FROM apples".toList.head? ≠ some '.') ∧
      mainDispatch "SELECT name FROM apples".toList =
        .error ("Missing or invalid command passed: ".toList ++
          "SELECT name FROM apples".toList) :=
  ⟨by decide, c1_nondot_command_rejected _ (by decide)⟩

/-! ## Claim C2 -/

/-- C2 counterexample: a parsed record whose single column has serial type 0
(NULL).  The claim says read_string returns no value there; the code returns
the decimal string 0 (byte 48), because extract_int_from_serial_type decodes
NULL as the integer 0. -/
theorem c2_counterexample :
    (Record.mk [0] [0] [] 7).read_string 0 = some [48] ∧
      (Record.mk [0] [0] [] 7).read_string 0 ≠ none := by
  constructor
  · decide
  · decide

/-- C2 (amended): for every consistent parsed record and in-range column
index other than the rowid sentinel, read_string returns the text slice when
the serial type is a text code, and the decimal rendering of the decoded
integer when the serial type is one of the integer codes 1,2,3,4,5,6,8,9; for
serial type 0 (NULL) it returns the decimal string 0 rather than no value,
because extract_int_from_serial_type decodes NULL as the integer 0. -/
theorem c2_read_string_cases (r : Record) (i : Nat) (hwf : wfRecord r = true)
    (hi : i < r.serialTypes.length) (hmax : i ≠ usizeMax) :
    (13 ≤ r.serialTypes.getD i 0 ∧ r.serialTypes.getD i 0 % 2 = 1 →
      r.read_string i =
        some ((r.data.drop (r.columnOffsets.getD i 0)).take
          ((r.serialTypes.getD i 0 - 13) / 2)))
    ∧ (r.serialTypes.getD i 0 ∈ ([1, 2, 3, 4, 5, 6, 8, 9] : List Nat) →
      ∃ v, extract_int_from_serial_type (r.serialTypes.getD i 0) r.data
          (r.columnOffsets.getD i 0) = some v ∧ r.read_string i = some (intToDecimal v))
    ∧ (r.serialTypes.getD i 0 = 0 → r.read_string i = some [48]) := by
  have hb := wfRecord_bound hwf hi
  refine ⟨?_, ?_, ?_⟩
  · intro htext
    have hsz : get_column_size (r.serialTypes.getD i 0) = (r.serialTypes.getD i 0 - 13) / 2 := by
      unfold get_column_size
      repeat rw [if_neg (by omega)]
    rw [hsz] at hb
    have hex : extract_text_from_serial_type (r.serialTypes.getD i 0) r.data
        (r.columnOffsets.getD i 0) =
        some ((r.data.drop (r.columnOffsets.getD i 0)).take
          ((r.serialTypes.getD i 0 - 13) / 2)) := by
      unfold extract_text_from_serial_type
      rw [if_pos htext, if_neg (by omega)]
    rw [read_string_eval r i hmax hi, hex]
  · intro hmem
    obtain ⟨v, hv⟩ := extract_int_code_ok hmem r.data (r.columnOffsets.getD i 0) hb
    refine ⟨v, hv, ?_⟩
    have hlt : r.serialTypes.getD i 0 < 13 := by
      simp only [List.mem_cons, List.not_mem_nil, or_false] at hmem
      omega
    rw [read_string_eval r i hmax hi, extract_text_small hlt, hv]
  · intro hz
    exact read_string_serial_zero hmax hi hz

/-- C2 witness: a record with a text column, an integer column and a NULL
column, exercising all three branches of the amended claim. -/
theorem c2_witness :
    wfRecord (Record.mk [15, 2, 0] [0, 1, 3] [97, 1, 4] 9) = true ∧
      (Record.mk [15, 2, 0] [0, 1, 3] [97, 1, 4] 9).read_string 0 = some [97] ∧
      (Record.mk [15, 2, 0] [0, 1, 3] [97, 1, 4] 9).read_string 1 = some [50, 54, 48] ∧
      (Record.mk [15, 2, 0] [0, 1, 3] [97, 1, 4] 9).read_string 2 = some [48] := by
  refine ⟨by decide, ?_, ?_, ?_⟩
  · have h := (c2_read_string_cases (Record.mk [15, 2, 0] [0, 1, 3] [97, 1, 4] 9) 0
      (by decide) (by decide) (by decide)).1 (by decide)
    simpa using h
  · obtain ⟨v, hv, hr⟩ := (c2_read_string_cases (Record.mk [15, 2, 0] [0, 1, 3] [97, 1, 4] 9) 1
      (by decide) (by decide) (by decide)).2.1 (by decide)
    have hv2 : v = 260 := by
      have : some v = some (260 : Int) := by rw [← hv]; decide
      simpa using this
    rw [hr, hv2]
    decide
  · exact (c2_read_string_cases (Record.mk [15, 2, 0] [0, 1, 3] [97, 1, 4] 9) 2
      (by decide) (by decide) (by decide)).2.2 (by decide)

/-- ORing into the zero low bits of a multiple of a power of two is addition. -/
theorem lor_prefix {S d k : Nat} (hS : S % 2 ^ k = 0) (hd : d < 2 ^ k) : S ||| d = S + d := by
  have ha : S / 2 ^ k * 2 ^ k = S := Nat.div_mul_cancel (Nat.dvd_of_mod_eq_zero hS)
  rw [← ha, lor_mul_add hd]

/-- Every byteAt access of a byte-valued buffer is below 256. -/
theorem byteAt_lt {data : List Nat} (hdata : ∀ b ∈ data, b < 256) (j : Nat) :
    byteAt data j < 256 := by
  unfold byteAt
  by_cases hj : j < data.length
  · rw [List.getD_eq_getElem _ _ hj]
    exact hdata _ (List.getElem_mem hj)
  · rw [List.getD_eq_default _ _ (by omega)]
    omega

set_option maxRecDepth 4096 in
/-- Characterization of the high-bit test on a byte value. -/
theorem byte_and_128 : ∀ b, b < 256 → (b &&& 128 = 0 ↔ b < 128) := by decide

/-! ## Claim C7 -/

/-- C7: for a byte buffer with enough payload bytes, decoding serial type 3
(24-bit) and serial type 5 (48-bit) returns exactly the big-endian
two's-complement value of the payload sign-extended to 64 bits, and the result
is negative exactly when the top bit of the first payload byte is set. -/
theorem c7_sign_extension (data : List Nat) (pos : Nat) (hdata : ∀ b ∈ data, b < 256) :
    (pos + 3 ≤ data.length →
      extract_int_from_serial_type 3 data pos =
        some (twosComplement 24
          (byteAt data pos * 65536 + byteAt data (pos + 1) * 256 + byteAt data (pos + 2))) ∧
      (twosComplement 24
          (byteAt data pos * 65536 + byteAt data (pos + 1) * 256 + byteAt data (pos + 2)) < 0 ↔
        128 ≤ byteAt data pos))
    ∧ (pos + 6 ≤ data.length →
      extract_int_from_serial_type 5 data pos =
        some (twosComplement 48
          (byteAt data pos * 2 ^ 40 + byteAt data (pos + 1) * 2 ^ 32 +
            byteAt data (pos + 2) * 2 ^ 24 + byteAt data (pos + 3) * 2 ^ 16 +
            byteAt data (pos + 4) * 256 + byteAt data (pos + 5))) ∧
      (twosComplement 48
          (byteAt data pos * 2 ^ 40 + byteAt data (pos + 1) * 2 ^ 32 +
            byteAt data (pos + 2) * 2 ^ 24 + byteAt data (pos + 3) * 2 ^ 16 +
            byteAt data (pos + 4) * 256 + byteAt data (pos + 5)) < 0 ↔
        128 ≤ byteAt data pos)) := by
  have hb0 := byteAt_lt hdata pos
  have hb1 := byteAt_lt hdata (pos + 1)
  have hb2 := byteAt_lt hdata (pos + 2)
  have hb3 := byteAt_lt hdata (pos + 3)
  have hb4 := byteAt_lt hdata (pos + 4)
  have hb5 := byteAt_lt hdata (pos + 5)
  constructor
  · intro hlen
    have hv : (byteAt data pos <<< 16) ||| (byteAt data (pos + 1) <<< 8) |||
        byteAt data (pos + 2) =
        byteAt data pos * 65536 + byteAt data (pos + 1) * 256 + byteAt data (pos + 2) := by
      simp only [Nat.shiftLeft_eq]
      have e1 : byteAt data pos * 2 ^ 16 ||| byteAt data (pos + 1) * 2 ^ 8 =
          byteAt data pos * 2 ^ 16 + byteAt data (pos + 1) * 2 ^ 8 :=
        lor_prefix (k := 16) (by omega) (by omega)
      rw [e1, lor_prefix (k := 8) (by omega) (by omega)]
      ring
    constructor
    · simp only [extract_int_from_serial_type]
      rw [if_neg (by omega), hv]
      by_cases hs : byteAt data pos &&& 128 ≠ 0
      · have hge : 128 ≤ byteAt data pos := by
          rcases Nat.lt_or_ge (byteAt data pos) 128 with h | h
          · exact absurd ((byte_and_128 _ hb0).2 h) hs
          · exact h
        rw [if_pos hs]
        have hlor : byteAt data pos * 65536 + byteAt data (pos + 1) * 256 +
            byteAt data (pos + 2) ||| 0xFF000000 =
            byteAt data pos * 65536 + byteAt data (pos + 1) * 256 +
              byteAt data (pos + 2) + 0xFF000000 := by
          rw [Nat.lor_comm]
          have : (0xFF000000 : Nat) = 255 * 2 ^ 24 := by norm_num
          rw [this, lor_mul_add (by omega)]
          omega
        rw [hlor]
        unfold i32ofBits twosComplement
        rw [if_neg (by omega), if_neg (by norm_num; omega)]
        simp only [Option.some_inj]
        push_cast
        omega
      · have hlt : byteAt data pos < 128 := (byte_and_128 _ hb0).1 (by omega)
        rw [if_neg hs]
        unfold i32ofBits twosComplement
        rw [if_pos (by omega), if_pos (by norm_num; omega)]
    · unfold twosComplement
      by_cases hn : byteAt data pos * 65536 + byteAt data (pos + 1) * 256 +
          byteAt data (pos + 2) < 2 ^ (24 - 1)
      · rw [if_pos hn]
        norm_num at hn ⊢
        omega
      · rw [if_neg hn]
        norm_num at hn ⊢
        omega
  · intro hlen
    have hv : (byteAt data pos <<< 40) ||| (byteAt data (pos + 1) <<< 32) |||
        (byteAt data (pos + 2) <<< 24) ||| (byteAt data (pos + 3) <<< 16) |||
        (byteAt data (pos + 4) <<< 8) ||| byteAt data (pos + 5) =
        byteAt data pos * 2 ^ 40 + byteAt data (pos + 1) * 2 ^ 32 +
          byteAt data (pos + 2) * 2 ^ 24 + byteAt data (pos + 3) * 2 ^ 16 +
          byteAt data (pos + 4) * 256 + byteAt data (pos + 5) := by
      simp only [Nat.shiftLeft_eq]
      have e1 : byteAt data pos * 2 ^ 40 ||| byteAt data (pos + 1) * 2 ^ 32 =
          byteAt data pos * 2 ^ 40 + byteAt data (pos + 1) * 2 ^ 32 :=
        lor_prefix (k := 40) (by omega) (by omega)
      rw [e1]
      have e2 : byteAt data pos * 2 ^ 40 + byteAt data (pos + 1) * 2 ^ 32 |||
          byteAt data (pos + 2) * 2 ^ 24 =
          byteAt data pos * 2 ^ 40 + byteAt data (pos + 1) * 2 ^ 32 +
            byteAt data (pos + 2) * 2 ^ 24 :=
        lor_prefix (k := 32) (by omega) (by omega)
      rw [e2]
      have e3 : byteAt data pos * 2 ^ 40 + byteAt data (pos + 1) * 2 ^ 32 +
          byteAt data (pos + 2) * 2 ^ 24 ||| byteAt data (pos + 3) * 2 ^ 16 =
          byteAt data pos * 2 ^ 40 + byteAt data (pos + 1) * 2 ^ 32 +
            byteAt data (pos + 2) * 2 ^ 24 + byteAt data (pos + 3) * 2 ^ 16 :=
        lor_prefix (k := 24) (by omega) (by omega)
      rw [e3]
      have e4 : byteAt data pos * 2 ^ 40 + byteAt data (pos + 1) * 2 ^ 32 +
          byteAt data (pos + 2) * 2 ^ 24 + byteAt data (pos + 3) * 2 ^ 16 |||
          byteAt data (pos + 4) * 2 ^ 8 =
          byteAt data pos * 2 ^ 40 + byteAt data (pos + 1) * 2 ^ 32 +
            byteAt data (pos + 2) * 2 ^ 24 + byteAt data (pos + 3) * 2 ^ 16 +
            byteAt data (pos + 4) * 2 ^ 8 :=
        lor_prefix (k := 16) (by omega) (by omega)
      rw [e4, lor_prefix (k := 8) (by omega) (by omega)]
      ring
    constructor
    · simp only [extract_int_from_serial_type]
      rw [if_neg (by omega), hv]
      by_cases hs : byteAt data pos &&& 128 ≠ 0
      · have hge : 128 ≤ byteAt data pos := by
          rcases Nat.lt_or_ge (byteAt data pos) 128 with h | h
          · exact absurd ((byte_and_128 _ hb0).2 h) hs
          · exact h
        rw [if_pos hs]
        have hlor : byteAt data pos * 2 ^ 40 + byteAt data (pos + 1) * 2 ^ 32 +
            byteAt data (pos + 2) * 2 ^ 24 + byteAt data (pos + 3) * 2 ^ 16 +
            byteAt data (pos + 4) * 256 + byteAt data (pos + 5) ||| 0xFFFF000000000000 =
            byteAt data pos * 2 ^ 40 + byteAt data (pos + 1) * 2 ^ 32 +
              byteAt data (pos + 2) * 2 ^ 24 + byteAt data (pos + 3) * 2 ^ 16 +
              byteAt data (pos + 4) * 256 + byteAt data (pos + 5) + 0xFFFF000000000000 := by
          rw [Nat.lor_comm]
          have : (0xFFFF000000000000 : Nat) = 65535 * 2 ^ 48 := by norm_num
          rw [this, lor_mul_add (by omega)]
          omega
        rw [hlor]
        unfold i64ofBits twosComplement
        rw [if_neg (by omega), if_neg (by norm_num; omega)]
        simp only [Option.some_inj]
        push_cast
        omega
      · have hlt : byteAt data pos < 128 := (byte_and_128 _ hb0).1 (by omega)
        rw [if_neg hs]
        unfold i64ofBits twosComplement
        rw [if_pos (by omega), if_pos (by norm_num; omega)]
    · unfold twosComplement
      by_cases hn : byteAt data pos * 2 ^ 40 + byteAt data (pos + 1) * 2 ^ 32 +
          byteAt data (pos + 2) * 2 ^ 24 + byteAt data (pos + 3) * 2 ^ 16 +
          byteAt data (pos + 4) * 256 + byteAt data (pos + 5) < 2 ^ (48 - 1)
      · rw [if_pos hn]
        norm_num at hn ⊢
        omega
      · rw [if_neg hn]
        norm_num at hn ⊢
        omega

/-- C7 witness: the buffer FF 00 00 80 00 00 00 00 00 decodes with serial
type 3 at position 0 to -65536 and with serial type 5 at position 3 to
-2 ^ 47, both negative with the top bit of the first payload byte set. -/
theorem c7_witness :
    (∀ b ∈ ([255, 0, 0, 128, 0, 0, 0, 0, 0] : List Nat), b < 256) ∧
      extract_int_from_serial_type 3 [255, 0, 0, 128, 0, 0, 0, 0, 0] 0 = some (-65536) ∧
      extract_int_from_serial_type 5 [255, 0, 0, 128, 0, 0, 0, 0, 0] 3 =
        some (-140737488355328) := by
  refine ⟨by decide, ?_, ?_⟩
  · have h := ((c7_sign_extension [255, 0, 0, 128, 0, 0, 0, 0, 0] 0 (by decide)).1
      (by decide)).1
    rw [h]
    decide
  · have h := ((c7_sign_extension [255, 0, 0, 128, 0, 0, 0, 0, 0] 3 (by decide)).2
      (by decide)).1
    rw [h]
    decide

/-- splitChar never returns an empty list of pieces. -/
theorem splitChar_ne_nil (sep : Char) (l : List Char) : splitChar sep l ≠ [] := by
  cases l with
  | nil => simp [splitChar]
  | cons c rest =>
    by_cases hc : c == sep
    · simp [splitChar, hc]
    · simp only [splitChar, hc]
      rcases h : splitChar sep rest with _ | ⟨p, ps⟩ <;> simp

/-- The number of pieces returned by splitChar is one more than the number of
separator occurrences. -/
theorem splitChar_length (sep : Char) (l : List Char) :
    (splitChar sep l).length = l.count sep + 1 := by
  induction l with
  | nil => simp [splitChar]
  | cons c rest ih =>
    by_cases hc : c == sep
    · have hcs : c = sep := by simpa using hc
      simp [splitChar, hc, ih, hcs, List.count_cons]
    · have hcs : ¬ c = sep := by simpa using hc
      simp only [splitChar, hc, Bool.false_eq_true, if_false]
      rcases h : splitChar sep rest with _ | ⟨p, ps⟩
      · exact absurd h (splitChar_ne_nil sep rest)
      · have := ih
        rw [h] at this
        simp only [List.length_cons] at this ⊢
        simp [List.count_cons, hcs]
        omega

/-- A list of length one whose head is a is exactly the singleton. -/
theorem eq_singleton_of_len_one {l : List Char} {a : Char} (h1 : l.length = 1)
    (h2 : l.head? = some a) : l = [a] := by
  rcases l with _ | ⟨x, _ | ⟨y, t⟩⟩ <;> simp_all

/-! ## Claim C10 -/

/-- C10 counterexample: the WHERE text consisting of a column name, an equals
sign and a lone single quote contains exactly one equals sign, yet
parse_where_clause neither succeeds nor reports the malformed-clause error:
the Rust byte-range slice value_part[1..0] panics. -/
theorem c10_counterexample :
    (['c', '=', squote].count '=' = 1) ∧
      parse_where_clause ['c', '=', squote] = .error .panicked := by
  exact ⟨by decide, rfl⟩

/-- C10 (amended): parse_where_clause reports the malformed-clause error
exactly when the WHERE text does not contain exactly one equals sign; when the
text splits into two parts and the trimmed right-hand side is exactly one
single-quote character, the slice panics instead of succeeding; in every other
one-equals case it succeeds with the trimmed left-hand side as the column and
the trimmed right-hand side as the value, with the surrounding single quotes
removed exactly when the value both begins and ends with a single quote — an
unquoted value is accepted verbatim. -/
theorem c10_parse_where_clause (wc : List Char) :
    (parse_where_clause wc = .error .malformed ↔ wc.count '=' ≠ 1)
    ∧ (parse_where_clause wc = .error .panicked ↔
        ∃ lhs rhs, splitChar '=' wc = [lhs, rhs] ∧ trimChars rhs = [squote])
    ∧ (∀ col v, parse_where_clause wc = .ok (col, v) →
        ∃ lhs rhs, splitChar '=' wc = [lhs, rhs] ∧ col = trimChars lhs ∧
          (((trimChars rhs).head? = some squote ∧ (trimChars rhs).getLast? = some squote ∧
              2 ≤ (trimChars rhs).length ∧ v = ((trimChars rhs).drop 1).dropLast) ∨
            (¬((trimChars rhs).head? = some squote ∧ (trimChars rhs).getLast? = some squote) ∧
              v = trimChars rhs))) := by
  have hc := splitChar_length '=' wc
  rcases h : splitChar '=' wc with _ | ⟨lhs, tail⟩
  · exact absurd h (splitChar_ne_nil '=' wc)
  rcases tail with _ | ⟨rhs, tail2⟩
  · rw [h] at hc
    simp only [List.length_cons, List.length_nil] at hc
    have hp : parse_where_clause wc = .error .malformed := by
      unfold parse_where_clause
      rw [h]
    refine ⟨⟨fun _ => by omega, fun _ => hp⟩, ⟨fun hq => ?_, fun ⟨a, b, hab, _⟩ => ?_⟩, ?_⟩
    · rw [hp] at hq
      simp at hq
    · simp at hab
    · intro col v hokv
      rw [hp] at hokv
      simp at hokv
  rcases tail2 with _ | ⟨x, rest⟩
  · -- exactly two pieces: one equals sign
    rw [h] at hc
    simp only [List.length_cons, List.length_nil] at hc
    have hcount : wc.count '=' = 1 := by omega
    have hred : parse_where_clause wc =
        (if (trimChars rhs).head? == some squote &&
            (trimChars rhs).getLast? == some squote then
          if (trimChars rhs).length == 1 then .error .panicked
          else .ok (trimChars lhs, ((trimChars rhs).drop 1).dropLast)
        else .ok (trimChars lhs, trimChars rhs)) := by
      unfold parse_where_clause
      rw [h]
    by_cases hq : (trimChars rhs).head? = some squote ∧ (trimChars rhs).getLast? = some squote
    · have hqb : ((trimChars rhs).head? == some squote &&
          (trimChars rhs).getLast? == some squote) = true := by
        simp [hq.1, hq.2]
      rw [if_pos hqb] at hred
      by_cases hl : (trimChars rhs).length = 1
      · rw [if_pos (by simp [hl])] at hred
        refine ⟨⟨fun hm => ?_, fun hm => ?_⟩, ⟨fun _ => ?_, fun _ => hred⟩, ?_⟩
        · rw [hred] at hm
          simp at hm
        · omega
        · exact ⟨lhs, rhs, rfl, eq_singleton_of_len_one hl hq.1⟩
        · intro col v hokv
          rw [hred] at hokv
          simp at hokv
      · rw [if_neg (by simp [hl])] at hred
        refine ⟨⟨fun hm => ?_, fun hm => ?_⟩, ⟨fun hp => ?_, fun ⟨a, b, hab, hb⟩ => ?_⟩, ?_⟩
        · rw [hred] at hm
          simp at hm
        · omega
        · rw [hred] at hp
          simp at hp
        · simp only [List.cons.injEq, and_true] at hab
          obtain ⟨ha, hbb⟩ := hab
          subst hbb
          rw [hb] at hl
          simp at hl
        · intro col v hokv
          rw [hred] at hokv
          simp only [Except.ok.injEq, Prod.mk.injEq] at hokv
          obtain ⟨hcol, hv⟩ := hokv
          have hlen2 : 2 ≤ (trimChars rhs).length := by
            rcases hlt : (trimChars rhs) with _ | ⟨a, t⟩
            · rw [hlt] at hq
              simp at hq
            · rcases t with _ | ⟨b, t2⟩
              · rw [hlt] at hl
                simp at hl
              · simp
          exact ⟨lhs, rhs, rfl, hcol.symm, Or.inl ⟨hq.1, hq.2, hlen2, hv.symm⟩⟩
    · have hqb : ((trimChars rhs).head? == some squote &&
          (trimChars rhs).getLast? == some squote) = false := by
        rcases Decidable.not_and_iff_or_not.mp hq with hn | hn <;> simp [hn]
      rw [if_neg (by simp [hqb])] at hred
      refine ⟨⟨fun hm => ?_, fun hm => ?_⟩, ⟨fun hp => ?_, fun ⟨a, b, hab, hb⟩ => ?_⟩, ?_⟩
      · rw [hred] at hm
        simp at hm
      · omega
      · rw [hred] at hp
        simp at hp
      · simp only [List.cons.injEq, and_true] at hab
        obtain ⟨ha, hbb⟩ := hab
        subst hbb
        exfalso
        apply hq
        rw [hb]
        exact ⟨rfl, rfl⟩
      · intro col v hokv
        rw [hred] at hokv
        simp only [Except.ok.injEq, Prod.mk.injEq] at hokv
        obtain ⟨hcol, hv⟩ := hokv
        exact ⟨lhs, rhs, rfl, hcol.symm, Or.inr ⟨hq, hv.symm⟩⟩
  · -- three or more pieces: at least two equals signs
    rw [h] at hc
    simp only [List.length_cons] at hc
    have hp : parse_where_clause wc = .error .malformed := by
      unfold parse_where_clause
      rw [h]
    refine ⟨⟨fun _ => by omega, fun _ => hp⟩, ⟨fun hq => ?_, fun ⟨a, b, hab, _⟩ => ?_⟩, ?_⟩
    · rw [hp] at hq
      simp at hq
    · simp at hab
    · intro col v hokv
      rw [hp] at hokv
      simp at hokv

/-- C10 witness: a WHERE text with no equals sign is reported malformed, and a
quoted one-equals clause succeeds with the quotes stripped. -/
theorem c10_witness :
    (['a', 'b'].count '=' ≠ 1 ∧ parse_where_clause ['a', 'b'] = .error .malformed) ∧
      parse_where_clause ['c', ' ', '=', ' ', squote, 'R', squote] = .ok (['c'], ['R']) :=
  ⟨⟨by decide, (c10_parse_where_clause ['a', 'b']).1.2 (by decide)⟩, rfl⟩

/-! ## Claim C8 -/

/-- C8 counterexample: the claim (and the spec) name the command .tables, but
the dispatcher of main.rs only accepts .table; invoking the program with
.tables is rejected with the invalid-command diagnostic instead of printing
the user table names. -/
theorem c8_counterexample :
    mainDispatch ".tables".toList =
      .error ("Missing or invalid command passed: ".toList ++ ".tables".toList) := rfl

/-- C8 (amended): the command is .table (not .tables).  It dispatches to the
table action, which prints on a single line, separated by single spaces,
exactly the tbl_name values of the schema entries whose type is table and
whose tbl_name does not begin with sqlite_; consequently no sqlite_-prefixed
name ever appears in the output. -/
theorem c8_table_command (records : List Record) :
    mainDispatch ".table".toList = .ok .table
    ∧ (∀ n, n ∈ read_table_names records ↔
        ∃ e ∈ read_schema records, e.entryType = bytes "table" ∧
          startsWith e.tblName (bytes "sqlite_") = false ∧ e.tblName = n)
    ∧ (∀ n ∈ read_table_names records, startsWith n (bytes "sqlite_") = false)
    ∧ tableCommandOutput records = List.intercalate [32] (read_table_names records) := by
  refine ⟨rfl, ?_, ?_, rfl⟩
  · intro n
    unfold read_table_names
    simp only [List.mem_map, List.mem_filter]
    constructor
    · rintro ⟨e, ⟨hmem, hu⟩, hn⟩
      unfold SchemaEntry.is_user_table at hu
      rw [Bool.and_eq_true, beq_iff_eq, Bool.not_eq_true'] at hu
      exact ⟨e, hmem, hu.1, hu.2, hn⟩
    · rintro ⟨e, hmem, ht, hs, hn⟩
      refine ⟨e, ⟨hmem, ?_⟩, hn⟩
      unfold SchemaEntry.is_user_table
      rw [Bool.and_eq_true, beq_iff_eq, Bool.not_eq_true']
      exact ⟨ht, hs⟩
  · intro n hn
    unfold read_table_names at hn
    simp only [List.mem_map, List.mem_filter] at hn
    obtain ⟨e, ⟨hmem, hu⟩, hn⟩ := hn
    unfold SchemaEntry.is_user_table at hu
    rw [Bool.and_eq_true, Bool.not_eq_true'] at hu
    rw [← hn]
    exact hu.2

/-- C8 witness: a catalog with the user table apples and the internal table
sqlite_sequence lists exactly apples, and no listed name carries the
sqlite_ prefix. -/
theorem c8_witness :
    read_table_names
        [Record.mk [23, 13, 25, 1, 13] [0, 5, 5, 11, 12] (bytes "tableapples" ++ [2]) 1,
         Record.mk [23, 13, 43, 1, 13] [0, 5, 5, 20, 21]
           (bytes "tablesqlite_sequence" ++ [3]) 2] = [bytes "apples"] ∧
      startsWith (bytes "apples") (bytes "sqlite_") = false := by
  refine ⟨by decide, ?_⟩
  exact (c8_table_command
    [Record.mk [23, 13, 25, 1, 13] [0, 5, 5, 11, 12] (bytes "tableapples" ++ [2]) 1,
     Record.mk [23, 13, 43, 1, 13] [0, 5, 5, 20, 21]
       (bytes "tablesqlite_sequence" ++ [3]) 2]).2.2.1 (bytes "apples") (by decide)

/-! ## Claim C3 -/

/-- Length of the interior-cell traversal: the sum over the non-zero children. -/
theorem travCells_length (cells : List (Nat × Int × TableBtree)) :
    (travCells cells).length =
      (cells.map (fun c => if c.1 ≠ 0 then (traverse_btree_table c.2.2).length else 0)).sum := by
  induction cells with
  | nil => simp [travCells]
  | cons hd tl ih =>
    obtain ⟨p, k, c⟩ := hd
    simp only [travCells, List.length_append, List.map_cons, List.sum_cons, ih]
    split <;> simp

/-- C3: the row count of SELECT COUNT(*) is the number of leaf-table cells
reachable from the root: count_table_rows is the length of the full recursive
traversal; on a leaf root it is the cell count of that page, and on an
interior root it is the sum over all (non-zero) children plus the rightmost
child — never the interior cell count of the root page itself. -/
theorem c3_count_matches_traversal :
    (∀ t : TableBtree, count_table_rows t = (traverse_btree_table t).length)
    ∧ (∀ cells : List Record, count_table_rows (.leaf cells) = cells.length)
    ∧ (∀ (cells : List (Nat × Int × TableBtree)) (rmPage : Nat) (rmChild : TableBtree),
        count_table_rows (.interior cells rmPage rmChild) =
          (cells.map (fun c => if c.1 ≠ 0 then count_table_rows c.2.2 else 0)).sum +
            (if rmPage ≠ 0 then count_table_rows rmChild else 0)) := by
  refine ⟨fun t => rfl, fun cells => by simp [count_table_rows, traverse_btree_table], ?_⟩
  intro cells rmPage rmChild
  unfold count_table_rows
  simp only [traverse_btree_table, List.length_append, travCells_length]
  split <;> simp

/-- A successful Except mapM succeeds pointwise. -/
theorem mapM_ok_forall {α β ε : Type} (f : α → Except ε β) :
    ∀ (l : List α) (out : List β), l.mapM f = Except.ok out →
      List.Forall₂ (fun a b => f a = Except.ok b) l out := by
  intro l
  induction l with
  | nil =>
    intro out h
    simp only [List.mapM_nil, pure, Except.pure, Except.ok.injEq] at h
    rw [← h]
    exact List.Forall₂.nil
  | cons a as ih =>
    intro out h
    rw [List.mapM_cons] at h
    rcases hfa : f a with e | b <;> rw [hfa] at h
    · simp [Bind.bind, Except.bind] at h
    · rcases hmas : as.mapM f with e | bs <;> rw [hmas] at h
      · simp [Bind.bind, Except.bind] at h
      · simp only [Bind.bind, Except.bind, pure, Except.pure, Except.ok.injEq] at h
        rw [← h]
        exact List.Forall₂.cons hfa (ih bs hmas)

/-! ## Claim C9 -/

/-- C9: select_columns (the no-WHERE path) resolves every requested column
purely by its case-insensitive position in the CREATE TABLE column list —
including a column literally named id on a table declaring id integer primary
key — and never substitutes the rowid: every resolved index is a position in
the column list (never the usize::MAX rowid sentinel of the WHERE path), each
row is exactly the positional read_strings of the record, and a column stored
with serial type 0 is emitted as the string 0 for every row rather than as
the rowid. -/
theorem c9_select_columns_positional (sql : ByteStr) (t : TableBtree)
    (names : List ByteStr) (rows : List (List ByteStr))
    (hok : select_columns sql t names = .ok rows) :
    ∃ idxs : List Nat, resolveColumns sql names = .ok idxs
      ∧ idxs.length = names.length
      ∧ (∀ (k : Nat) (hk : k < names.length) (hk2 : k < idxs.length),
          (parse_column_names sql).findIdx?
            (fun c => eqIgnoreAsciiCase c (names.get ⟨k, hk⟩)) = some (idxs.get ⟨k, hk2⟩))
      ∧ (∀ j ∈ idxs, j < (parse_column_names sql).length)
      ∧ rows = (traverse_btree_table t).map (fun r => r.read_strings idxs)
      ∧ (∀ r ∈ traverse_btree_table t, ∀ j ∈ idxs, j ≠ usizeMax →
          j < r.serialTypes.length → r.serialTypes.getD j 0 = 0 →
          r.read_string j = some [48]) := by
  unfold select_columns at hok
  rcases hres : resolveColumns sql names with e | idxs <;> rw [hres] at hok
  · cases hok
  simp only [Except.ok.injEq] at hok
  have hfa : List.Forall₂
      (fun nm j => (match (parse_column_names sql).findIdx?
          (fun c => eqIgnoreAsciiCase c nm) with
        | some j => Except.ok j
        | none => Except.error (bytes "Column not found: " ++ nm)) = Except.ok j)
      names idxs := by
    apply mapM_ok_forall
    have := hres
    unfold resolveColumns at this
    exact this
  have hlen := hfa.length_eq
  have hget := List.forall₂_iff_get.mp hfa
  have hpoint : ∀ (k : Nat) (hk : k < names.length) (hk2 : k < idxs.length),
      (parse_column_names sql).findIdx?
        (fun c => eqIgnoreAsciiCase c (names.get ⟨k, hk⟩)) = some (idxs.get ⟨k, hk2⟩) := by
    intro k hk hk2
    have h := hget.2 k hk hk2
    rcases hfind : (parse_column_names sql).findIdx?
        (fun c => eqIgnoreAsciiCase c (names.get ⟨k, hk⟩)) with _ | j <;>
      rw [hfind] at h
    · cases h
    · simp only [Except.ok.injEq] at h
      rw [h]
  refine ⟨idxs, rfl, hlen.symm, hpoint, ?_, hok.symm, ?_⟩
  · intro j hj
    obtain ⟨⟨k, hk2⟩, hkj⟩ := List.mem_iff_get.mp hj
    have hk : k < names.length := by omega
    have h := hpoint k hk hk2
    rw [hkj] at h
    exact (List.findIdx?_eq_some_iff_findIdx_eq.mp h).1
  · intro r _ j _ hmax hj hz
    exact read_string_serial_zero hmax hj hz

/-- C9 witness: on a table created with id integer primary key whose stored
records carry serial type 0 in the id column, selecting id yields the string
0 for the row, not the rowid 7. -/
theorem c9_witness :
    select_columns (bytes "CREATE TABLE apples(id integer primary key, name text)")
        (TableBtree.leaf [Record.mk [0, 21] [0, 0] (bytes "Fuji") 7]) [bytes "id"] =
      .ok [[[48]]] ∧
      (Record.mk [0, 21] [0, 0] (bytes "Fuji") 7).read_string 0 = some [48] ∧
      intToDecimal (7 : Int) ≠ [48] := by
  have hok : select_columns (bytes "CREATE TABLE apples(id integer primary key, name text)")
      (TableBtree.leaf [Record.mk [0, 21] [0, 0] (bytes "Fuji") 7]) [bytes "id"] =
      .ok [[[48]]] := by rfl
  obtain ⟨idxs, hres, hlen, hpoint, hlt, hrows, hzero⟩ :=
    c9_select_columns_positional _ _ _ _ hok
  refine ⟨hok, ?_, by decide⟩
  have h0 : resolveColumns (bytes "CREATE TABLE apples(id integer primary key, name text)")
      [bytes "id"] = .ok [0] := by rfl
  rw [h0] at hres
  simp only [Except.ok.injEq] at hres
  exact hzero _ (by decide) 0 (by rw [← hres]; decide) (by decide) (by decide) (by decide)

/-- Induction principle for table B-trees (the nested List recursion unfolded
into a membership hypothesis). -/
theorem tableBtreeInd (P : TableBtree → Prop)
    (hleaf : ∀ cells, P (.leaf cells))
    (hint : ∀ cells rmPage rmChild, (∀ c ∈ cells, P c.2.2) → P rmChild →
      P (.interior cells rmPage rmChild)) : ∀ t, P t := by
  have key : ∀ n t, sizeOf t ≤ n → P t := by
    intro n
    induction n with
    | zero =>
      intro t ht
      cases t <;> simp at ht
    | succ n ih =>
      intro t ht
      cases t with
      | leaf cells => exact hleaf cells
      | interior cells rmPage rmChild =>
        have hsz : sizeOf (TableBtree.interior cells rmPage rmChild) =
            1 + sizeOf cells + sizeOf rmPage + sizeOf rmChild := by simp
        refine hint cells rmPage rmChild ?_ (ih rmChild (by omega))
        intro c hc
        have h1 := List.sizeOf_lt_of_mem hc
        obtain ⟨p, k, ch⟩ := c
        have h2 : sizeOf ch < sizeOf (p, k, ch) := by
          simp
          omega
        exact ih ch (by omega)
  intro t
  exact key (sizeOf t) t le_rfl

/-- Transitivity of the optional strict lower bound. -/
theorem loLt_trans {lo : Option Int} {k x : Int} (h1 : loLt lo k = true) (h2 : k < x) :
    loLt lo x = true := by
  cases lo <;> simp [loLt] at h1 ⊢ <;> omega

/-- Soundness of the interior-cell walk of find_record_by_rowid. -/
theorem frbrCells_sound (target : Int) :
    ∀ (cells : List (Nat × Int × TableBtree)) (rmChild : TableBtree),
      (∀ c ∈ cells, ∀ r, find_record_by_rowid target c.2.2 = some r →
        r.rowid = target ∧ r ∈ tableRecords c.2.2) →
      (∀ r, find_record_by_rowid target rmChild = some r →
        r.rowid = target ∧ r ∈ tableRecords rmChild) →
      ∀ r, frbrCells target cells rmChild = some r →
        r.rowid = target ∧ r ∈ tableRecordsCells cells ++ tableRecords rmChild := by
  intro cells
  induction cells with
  | nil =>
    intro rmChild _ hrm r hr
    simp only [frbrCells] at hr
    obtain ⟨h1, h2⟩ := hrm r hr
    exact ⟨h1, by simp [tableRecordsCells, h2]⟩
  | cons hd tl ih =>
    intro rmChild hcells hrm r hr
    obtain ⟨p, k, c⟩ := hd
    simp only [frbrCells] at hr
    by_cases hk : target ≤ k
    · rw [if_pos hk] at hr
      obtain ⟨h1, h2⟩ := hcells (p, k, c) (by simp) r hr
      refine ⟨h1, ?_⟩
      simp only [tableRecordsCells, List.mem_append] at h2 ⊢
      tauto
    · rw [if_neg hk] at hr
      obtain ⟨h1, h2⟩ := ih rmChild (fun c2 hc2 => hcells c2 (by simp [hc2])) hrm r hr
      refine ⟨h1, ?_⟩
      simp only [tableRecordsCells, List.mem_append] at h2 ⊢
      tauto

/-- Soundness of find_record_by_rowid: a found record has the target rowid
and is a leaf cell of the tree. -/
theorem find_sound (target : Int) :
    ∀ t r, find_record_by_rowid target t = some r →
      r.rowid = target ∧ r ∈ tableRecords t := by
  apply tableBtreeInd
    (P := fun t => ∀ r, find_record_by_rowid target t = some r →
      r.rowid = target ∧ r ∈ tableRecords t)
  · intro cells r hr
    simp only [find_record_by_rowid] at hr
    have h1 := List.find?_some hr
    have h2 := List.mem_of_find?_eq_some hr
    exact ⟨by simpa using h1, by simpa [tableRecords] using h2⟩
  · intro cells rmPage rmChild ihc ihr r hr
    simp only [find_record_by_rowid] at hr
    obtain ⟨h1, h2⟩ := frbrCells_sound target cells rmChild ihc ihr r hr
    exact ⟨h1, by simpa [tableRecords] using h2⟩

/-- The lower bound of wfTblCells bounds every record below the walked cells
and the rightmost child. -/
theorem wfTblCells_bound :
    ∀ (cells : List (Nat × Int × TableBtree)) (rmChild : TableBtree) (lo : Option Int),
      (∀ c ∈ cells, ∀ lo2, wfTbl lo2 c.2.2 = true →
        ∀ r ∈ tableRecords c.2.2, loLt lo2 r.rowid = true) →
      (∀ lo2, wfTbl lo2 rmChild = true →
        ∀ r ∈ tableRecords rmChild, loLt lo2 r.rowid = true) →
      wfTblCells lo cells rmChild = true →
      ∀ r ∈ tableRecordsCells cells ++ tableRecords rmChild, loLt lo r.rowid = true := by
  intro cells
  induction cells with
  | nil =>
    intro rmChild lo _ ihr hwf r hr
    simp only [wfTblCells] at hwf
    simp only [tableRecordsCells, List.nil_append] at hr
    exact ihr lo hwf r hr
  | cons hd tl ih =>
    intro rmChild lo ihc ihr hwf r hr
    obtain ⟨p, k, c⟩ := hd
    simp only [wfTblCells, Bool.and_eq_true] at hwf
    obtain ⟨⟨⟨hlk, hwc⟩, hub⟩, hrest⟩ := hwf
    simp only [tableRecordsCells, List.mem_append, List.append_assoc] at hr
    rcases hr with hr | hr
    · exact ihc (p, k, c) (by simp) lo hwc r hr
    · have h2 := ih rmChild (some k) (fun c2 hc2 => ihc c2 (by simp [hc2])) ihr hrest r
        (by simpa [List.mem_append] using hr)
      have hk2 : k < r.rowid := by simpa [loLt] using h2
      exact loLt_trans hlk hk2

/-- Bound form of wfTbl: every rowid in a well-formed tree exceeds the
threaded lower bound. -/
theorem wfTbl_bound :
    ∀ t (lo : Option Int), wfTbl lo t = true →
      ∀ r ∈ tableRecords t, loLt lo r.rowid = true := by
  apply tableBtreeInd
    (P := fun t => ∀ (lo : Option Int), wfTbl lo t = true →
      ∀ r ∈ tableRecords t, loLt lo r.rowid = true)
  · intro cells lo hwf r hr
    simp only [wfTbl] at hwf
    rw [List.all_eq_true] at hwf
    exact hwf r (by simpa [tableRecords] using hr)
  · intro cells rmPage rmChild ihc ihr lo hwf r hr
    simp only [wfTbl] at hwf
    exact wfTblCells_bound cells rmChild lo ihc ihr hwf r
      (by simpa [tableRecords] using hr)

/-- Completeness of the interior-cell walk of find_record_by_rowid under the
ordering invariant. -/
theorem frbrCells_complete (target : Int) :
    ∀ (cells : List (Nat × Int × TableBtree)) (rmChild : TableBtree) (lo : Option Int),
      (∀ c ∈ cells, ∀ lo2, wfTbl lo2 c.2.2 = true →
        target ∈ (tableRecords c.2.2).map Record.rowid →
        (find_record_by_rowid target c.2.2).isSome) →
      (∀ lo2, wfTbl lo2 rmChild = true →
        target ∈ (tableRecords rmChild).map Record.rowid →
        (find_record_by_rowid target rmChild).isSome) →
      wfTblCells lo cells rmChild = true →
      target ∈ (tableRecordsCells cells ++ tableRecords rmChild).map Record.rowid →
      (frbrCells target cells rmChild).isSome := by
  intro cells
  induction cells with
  | nil =>
    intro rmChild lo _ ihr hwf hmem
    simp only [frbrCells]
    simp only [wfTblCells] at hwf
    simp only [tableRecordsCells, List.nil_append] at hmem
    exact ihr lo hwf hmem
  | cons hd tl ih =>
    intro rmChild lo ihc ihr hwf hmem
    obtain ⟨p, k, c⟩ := hd
    simp only [wfTblCells, Bool.and_eq_true] at hwf
    obtain ⟨⟨⟨hlk, hwc⟩, hub⟩, hrest⟩ := hwf
    simp only [frbrCells]
    by_cases hk : target ≤ k
    · rw [if_pos hk]
      apply ihc (p, k, c) (by simp) lo hwc
      simp only [tableRecordsCells, List.mem_map, List.mem_append, List.append_assoc] at hmem
      obtain ⟨r, hrmem, hrid⟩ := hmem
      rcases hrmem with hr | hr
      · exact List.mem_map.mpr ⟨r, hr, hrid⟩
      · exfalso
        have h2 := wfTblCells_bound tl rmChild (some k)
          (fun c2 hc2 lo2 => wfTbl_bound c2.2.2 lo2) (fun lo2 => wfTbl_bound rmChild lo2)
          hrest r (by simpa [List.mem_append] using hr)
        have hk2 : k < r.rowid := by simpa [loLt] using h2
        omega
    · rw [if_neg hk]
      apply ih rmChild (some k) (fun c2 hc2 => ihc c2 (by simp [hc2])) ihr hrest
      simp only [tableRecordsCells, List.mem_map, List.mem_append, List.append_assoc] at hmem ⊢
      obtain ⟨r, hrmem, hrid⟩ := hmem
      rcases hrmem with hr | hr
      · exfalso
        rw [List.all_eq_true] at hub
        have := hub r hr
        simp at this
        omega
      · exact ⟨r, by simpa [List.mem_append] using hr, hrid⟩

/-- Completeness of find_record_by_rowid on a well-formed tree: a present
rowid is found. -/
theorem find_complete (target : Int) :
    ∀ t (lo : Option Int), wfTbl lo t = true →
      target ∈ (tableRecords t).map Record.rowid →
      (find_record_by_rowid target t).isSome = true := by
  apply tableBtreeInd
    (P := fun t => ∀ (lo : Option Int), wfTbl lo t = true →
      target ∈ (tableRecords t).map Record.rowid →
      (find_record_by_rowid target t).isSome = true)
  · intro cells lo _ hmem
    simp only [find_record_by_rowid]
    simp only [tableRecords, List.mem_map] at hmem
    obtain ⟨r, hr, hrid⟩ := hmem
    rw [List.find?_isSome]
    exact ⟨r, hr, by simp [hrid]⟩
  · intro cells rmPage rmChild ihc ihr lo hwf hmem
    simp only [find_record_by_rowid]
    simp only [wfTbl] at hwf
    exact frbrCells_complete target cells rmChild lo ihc ihr hwf
      (by simpa [tableRecords] using hmem)

/-! ## Claim C5 -/

/-- C5: on a table B-tree satisfying the ascending-rowid ordering invariant,
find_record_by_rowid — which descends each interior page through exactly one
child, the left child of the first cell whose key rowid is at least the
target or the rightmost child when no such cell exists, and linearly scans
the reached leaf for a record with the target rowid — returns a record with
exactly the target rowid from the tree when the target is present, and None
exactly when the target rowid is absent. -/
theorem c5_find_record_by_rowid (t : TableBtree) (target : Int)
    (hwf : wfTbl none t = true) :
    (∀ r, find_record_by_rowid target t = some r →
      r.rowid = target ∧ r ∈ tableRecords t)
    ∧ ((find_record_by_rowid target t).isSome = true ↔
        target ∈ (tableRecords t).map Record.rowid)
    ∧ (find_record_by_rowid target t = none ↔
        target ∉ (tableRecords t).map Record.rowid) := by
  have hsound := find_sound target t
  have hcomp := find_complete target t none hwf
  refine ⟨hsound, ⟨?_, fun hmem => hcomp hmem⟩, ⟨?_, ?_⟩⟩
  · intro hs
    obtain ⟨r, hr⟩ := Option.isSome_iff_exists.mp hs
    obtain ⟨h1, h2⟩ := hsound r hr
    exact List.mem_map.mpr ⟨r, h2, h1⟩
  · intro hnone hmem
    have := hcomp hmem
    rw [hnone] at this
    simp at this
  · intro hnmem
    rcases hf : find_record_by_rowid target t with _ | r
    · rfl
    · exfalso
      obtain ⟨h1, h2⟩ := hsound r hf
      exact hnmem (List.mem_map.mpr ⟨r, h2, h1⟩)

/-- C5 witness: a two-level table with rowids 1, 2 in the keyed child and 3
in the rightmost child satisfies the invariant; rowid 2 is found and the
absent rowid 5 yields None. -/
theorem c5_witness :
    wfTbl none (TableBtree.interior
        [(2, 2, TableBtree.leaf [⟨[1], [0], [5], 1⟩, ⟨[1], [0], [9], 2⟩])] 3
        (TableBtree.leaf [⟨[1], [0], [7], 3⟩])) = true ∧
      (find_record_by_rowid 2 (TableBtree.interior
        [(2, 2, TableBtree.leaf [⟨[1], [0], [5], 1⟩, ⟨[1], [0], [9], 2⟩])] 3
        (TableBtree.leaf [⟨[1], [0], [7], 3⟩]))).isSome = true ∧
      find_record_by_rowid 5 (TableBtree.interior
        [(2, 2, TableBtree.leaf [⟨[1], [0], [5], 1⟩, ⟨[1], [0], [9], 2⟩])] 3
        (TableBtree.leaf [⟨[1], [0], [7], 3⟩])) = none := by
  have hwf : wfTbl none (TableBtree.interior
      [(2, 2, TableBtree.leaf [⟨[1], [0], [5], 1⟩, ⟨[1], [0], [9], 2⟩])] 3
      (TableBtree.leaf [⟨[1], [0], [7], 3⟩])) = true := by
    simp [wfTbl, wfTblCells, tableRecords, tableRecordsCells, loLt]
  refine ⟨hwf, ?_, ?_⟩
  · exact (c5_find_record_by_rowid _ 2 hwf).2.1.mpr (by decide)
  · exact (c5_find_record_by_rowid _ 5 hwf).2.2.mpr (by decide)

/-- Induction principle for index B-trees. -/
theorem indexBtreeInd (P : IndexBtree → Prop)
    (hleaf : ∀ cells, P (.leaf cells))
    (hint : ∀ cells rmPage rmChild, (∀ c ∈ cells, P c.2.2) → P rmChild →
      P (.interior cells rmPage rmChild)) : ∀ t, P t := by
  have key : ∀ n t, sizeOf t ≤ n → P t := by
    intro n
    induction n with
    | zero =>
      intro t ht
      cases t <;> simp at ht
    | succ n ih =>
      intro t ht
      cases t with
      | leaf cells => exact hleaf cells
      | interior cells rmPage rmChild =>
        have hsz : sizeOf (IndexBtree.interior cells rmPage rmChild) =
            1 + sizeOf cells + sizeOf rmPage + sizeOf rmChild := by simp
        refine hint cells rmPage rmChild ?_ (ih rmChild (by omega))
        intro c hc
        have h1 := List.sizeOf_lt_of_mem hc
        obtain ⟨p, k, ch⟩ := c
        have h2 : sizeOf ch < sizeOf (p, k, ch) := by
          simp
          omega
        exact ih ch (by omega)
  intro t
  exact key (sizeOf t) t le_rfl

/-- Membership in the leaf cells below the interior cells of one page. -/
theorem mem_idxEntriesCells {c : IndexCell} :
    ∀ cells : List (Nat × Option ByteStr × IndexBtree),
      c ∈ idxEntriesCells cells ↔ ∃ cell ∈ cells, c ∈ idxEntries cell.2.2 := by
  intro cells
  induction cells with
  | nil => simp [idxEntriesCells]
  | cons hd tl ih =>
    obtain ⟨p, k, ch⟩ := hd
    simp only [idxEntriesCells, List.mem_append, ih, List.mem_cons]
    constructor
    · rintro (h | ⟨cell, hc, hm⟩)
      · exact ⟨(p, k, ch), Or.inl rfl, h⟩
      · exact ⟨cell, Or.inr hc, hm⟩
    · rintro ⟨cell, hc | hc, hm⟩
      · rw [hc] at hm
        exact Or.inl hm
      · exact Or.inr ⟨cell, hc, hm⟩

/-- A rowid returned from searching a selected cell child appears in the
concatenated cell results. -/
theorem mem_sibCells_of {v : ByteStr} {rid : Int} :
    ∀ (cells : List (Nat × Option ByteStr × IndexBtree)) (cell : Nat × Option ByteStr × IndexBtree),
      cell ∈ cells → icellSelected v cell = true →
      rid ∈ search_index_btree v cell.2.2 → rid ∈ sibCells v cells := by
  intro cells
  induction cells with
  | nil => simp
  | cons hd tl ih =>
    intro cell hc hsel hm
    simp only [List.mem_cons] at hc
    simp only [sibCells, List.mem_append]
    rcases hc with hc | hc
    · rw [← hc] at *
      rw [if_pos hsel]
      exact Or.inl hm
    · exact Or.inr (ih cell hc hsel hm)

/-- Every rowid in the concatenated cell results comes from some cell child. -/
theorem sibCells_sound {v : ByteStr} {rid : Int} :
    ∀ cells : List (Nat × Option ByteStr × IndexBtree),
      rid ∈ sibCells v cells → ∃ cell ∈ cells, rid ∈ search_index_btree v cell.2.2 := by
  intro cells
  induction cells with
  | nil => simp [sibCells]
  | cons hd tl ih =>
    intro hm
    simp only [sibCells, List.mem_append] at hm
    rcases hm with hm | hm
    · by_cases hsel : icellSelected v hd = true
      · rw [if_pos hsel] at hm
        exact ⟨hd, by simp, hm⟩
      · rw [if_neg hsel] at hm
        simp at hm
    · obtain ⟨cell, hc, hmm⟩ := ih hm
      exact ⟨cell, by simp [hc], hmm⟩

/-- Soundness of search_index_btree: every returned rowid belongs to a leaf
index cell whose first value equals the search value. -/
theorem search_sound (v : ByteStr) :
    ∀ t rid, rid ∈ search_index_btree v t →
      ∃ c ∈ idxEntries t, c.rowid = rid ∧ c.values.head? = some v := by
  apply indexBtreeInd
    (P := fun t => ∀ rid, rid ∈ search_index_btree v t →
      ∃ c ∈ idxEntries t, c.rowid = rid ∧ c.values.head? = some v)
  · intro cells rid hm
    simp only [search_index_btree, List.mem_map] at hm
    obtain ⟨c, hc, hrid⟩ := hm
    rw [List.mem_filter] at hc
    refine ⟨c, by simpa [idxEntries] using hc.1, hrid, ?_⟩
    have := hc.2
    simpa using this
  · intro cells rmPage rmChild ihc ihr rid hm
    simp only [search_index_btree, List.mem_append] at hm
    rcases hm with hm | hm
    · obtain ⟨cell, hc, hmm⟩ := sibCells_sound cells hm
      obtain ⟨c, hce, h1, h2⟩ := ihc cell hc rid hmm
      refine ⟨c, ?_, h1, h2⟩
      simp only [idxEntries, List.mem_append, mem_idxEntriesCells]
      exact Or.inl ⟨cell, hc, hce⟩
    · split at hm
      · obtain ⟨c, hce, h1, h2⟩ := ihr rid hm
        refine ⟨c, ?_, h1, h2⟩
        simp only [idxEntries, List.mem_append]
        exact Or.inr hce
      · simp at hm

/-- Per-cell content of wfIdxCells: every walked cell has a parsed text key,
a well-formed child, and entries bounded above by its key. -/
theorem wfIdxCells_spec :
    ∀ cells : List (Nat × Option ByteStr × IndexBtree), wfIdxCells cells = true →
      ∀ cell ∈ cells, ∃ k, cell.2.1 = some k ∧ wfIdx cell.2.2 = true ∧
        (idxEntries cell.2.2).all (fun e => headLe e k) = true := by
  intro cells
  induction cells with
  | nil => simp
  | cons hd tl ih =>
    intro hwf cell hc
    obtain ⟨p, ko, ch⟩ := hd
    cases ko with
    | none => simp [wfIdxCells] at hwf
    | some k =>
      simp only [wfIdxCells, Bool.and_eq_true] at hwf
      obtain ⟨⟨hwch, hbnd⟩, hrest⟩ := hwf
      simp only [List.mem_cons] at hc
      rcases hc with hc | hc
      · exact ⟨k, by rw [hc], by rw [hc]; exact hwch, by rw [hc]; exact hbnd⟩
      · exact ih hrest cell hc

/-- Completeness of search_index_btree on a well-formed index: every leaf
cell matching the search value is reached and returned. -/
theorem search_complete (v : ByteStr) :
    ∀ t, wfIdx t = true → ∀ c ∈ idxEntries t, c.values.head? = some v →
      c.rowid ∈ search_index_btree v t := by
  apply indexBtreeInd
    (P := fun t => wfIdx t = true → ∀ c ∈ idxEntries t, c.values.head? = some v →
      c.rowid ∈ search_index_btree v t)
  · intro cells _ c hc hhead
    simp only [idxEntries] at hc
    simp only [search_index_btree, List.mem_map]
    exact ⟨c, List.mem_filter.mpr ⟨hc, by simp [hhead]⟩, rfl⟩
  · intro cells rmPage rmChild ihc ihr hwf c hc hhead
    simp only [wfIdx, Bool.and_eq_true] at hwf
    obtain ⟨⟨hwcells, hwrm⟩, hrmclause⟩ := hwf
    simp only [idxEntries, List.mem_append, mem_idxEntriesCells] at hc
    simp only [search_index_btree, List.mem_append]
    rcases hc with ⟨cell, hcm, hce⟩ | hc
    · left
      obtain ⟨k, hk, hwch, hbnd⟩ := wfIdxCells_spec cells hwcells cell hcm
      have hsel : icellSelected v cell = true := by
        obtain ⟨p, ko, ch⟩ := cell
        simp only at hk
        subst hk
        simp only [icellSelected]
        rw [List.all_eq_true] at hbnd
        have hb := hbnd c hce
        simp only [headLe, hhead] at hb
        exact hb
      exact mem_sibCells_of cells cell hcm hsel (ihc cell hcm hwch c hce hhead)
    · right
      have hcond : (rmPrimary v cells || cells.all (fun x => !icellSelected v x)) = true := by
        rcases hlast : cells.getLast? with _ | ⟨p, ko, ch⟩
        · have hnil : cells = [] := List.getLast?_eq_none_iff.mp hlast
          rw [hnil]
          simp
        · have hmem := List.mem_of_getLast?_eq_some hlast
          obtain ⟨k, hk, _, _⟩ := wfIdxCells_spec cells hwcells _ hmem
          simp only at hk
          subst hk
          rw [hlast] at hrmclause
          simp only [] at hrmclause
          rw [List.all_eq_true] at hrmclause
          have hge := hrmclause c hc
          simp only [headGe, hhead] at hge
          simp only [rmPrimary, hlast]
          rw [hge]
          simp
      rw [if_pos hcond]
      exact ihr hwrm c hc hhead

/-! ## Claim C4 -/

/-- C4: on a well-formed index B-tree over text keys whose entries agree with
the table (looking up an entry rowid finds a record whose indexed column
reads as that entry value), every rowid returned by search_index_btree
identifies a table record whose indexed column equals the search value
byte-for-byte, and no matching leaf cell is missed: the search descends into
every cell child with value at most the cell key and into the rightmost child
when the value is at least the last key, so matches spanning adjacent leaf
pages are all returned. -/
theorem c4_search_index (idx : IndexBtree) (tbl : TableBtree) (colIdx : Nat) (v : ByteStr)
    (hwf : wfIdx idx = true)
    (hlink : ∀ c ∈ idxEntries idx, ∃ r, find_record_by_rowid c.rowid tbl = some r ∧
      r.read_string colIdx = c.values.head?) :
    (∀ rid ∈ search_index_btree v idx, ∃ r, find_record_by_rowid rid tbl = some r ∧
      r.read_string colIdx = some v)
    ∧ (∀ c ∈ idxEntries idx, c.values.head? = some v →
        c.rowid ∈ search_index_btree v idx) := by
  constructor
  · intro rid hrid
    obtain ⟨c, hc, hcrid, hchead⟩ := search_sound v idx rid hrid
    obtain ⟨r, hr, hrv⟩ := hlink c hc
    rw [hcrid] at hr
    exact ⟨r, hr, by rw [hrv, hchead]⟩
  · exact search_complete v idx hwf

/-- C4 witness: an interior index whose keyed child and rightmost child both
hold an entry for the value a (the value spans adjacent leaf pages); the
search returns both rowids 1 and 2, and each resolves to a table record whose
column 0 reads a. -/
theorem c4_witness :
    wfIdx (IndexBtree.interior [(2, some [97], IndexBtree.leaf [⟨[[97]], 1⟩])] 3
        (IndexBtree.leaf [⟨[[97]], 2⟩])) = true ∧
      (1 : Int) ∈ search_index_btree [97]
        (IndexBtree.interior [(2, some [97], IndexBtree.leaf [⟨[[97]], 1⟩])] 3
          (IndexBtree.leaf [⟨[[97]], 2⟩])) ∧
      (2 : Int) ∈ search_index_btree [97]
        (IndexBtree.interior [(2, some [97], IndexBtree.leaf [⟨[[97]], 1⟩])] 3
          (IndexBtree.leaf [⟨[[97]], 2⟩])) := by
  have hwf : wfIdx (IndexBtree.interior [(2, some [97], IndexBtree.leaf [⟨[[97]], 1⟩])] 3
      (IndexBtree.leaf [⟨[[97]], 2⟩])) = true := by decide
  have hlink : ∀ c ∈ idxEntries (IndexBtree.interior
      [(2, some [97], IndexBtree.leaf [⟨[[97]], 1⟩])] 3 (IndexBtree.leaf [⟨[[97]], 2⟩])),
      ∃ r, find_record_by_rowid c.rowid
        (TableBtree.leaf [⟨[15], [0], [97], 1⟩, ⟨[15], [0], [97], 2⟩]) = some r ∧
      r.read_string 0 = c.values.head? := by
    intro c hc
    simp only [idxEntries, idxEntriesCells, List.append_nil, List.nil_append,
      List.mem_append, List.mem_singleton] at hc
    rcases hc with hc | hc <;> subst hc
    · refine ⟨⟨[15], [0], [97], 1⟩, ?_, by decide⟩
      simp only [find_record_by_rowid]
      decide
    · refine ⟨⟨[15], [0], [97], 2⟩, ?_, by decide⟩
      simp only [find_record_by_rowid]
      decide
  have h := c4_search_index _
    (TableBtree.leaf [⟨[15], [0], [97], 1⟩, ⟨[15], [0], [97], 2⟩]) 0 [97] hwf hlink
  exact ⟨hwf, h.2 ⟨[[97]], 1⟩ (by decide) (by decide), h.2 ⟨[[97]], 2⟩ (by decide) (by decide)⟩

/-! ## Claim C6: varint round-trip -/

/-- sevenGroupsAux with sufficient fuel produces the nonempty big-endian
base-128 digit run of n in front of the accumulator. -/
theorem sevenGroupsAux_spec :
    ∀ (fuel : Nat), ∀ (n : Nat), ∀ (acc : List Nat), n < 128 ^ (fuel + 1) →
      ∃ ds, sevenGroupsAux (fuel + 1) n acc = ds ++ acc ∧ ds ≠ [] ∧
        (∀ d ∈ ds, d < 128) ∧
        List.foldl (fun a d => a * 128 + d) 0 ds = n ∧
        ds.length ≤ fuel + 1 ∧
        (ds.length = 1 ∨ 128 ^ (ds.length - 1) ≤ n) := by
  intro fuel
  induction fuel with
  | zero =>
    intro n acc hn
    norm_num at hn
    refine ⟨[n], ?_, by simp, by simpa using hn, by simp, by simp, Or.inl rfl⟩
    simp [sevenGroupsAux, hn]
  | succ fuel ih =>
    intro n acc hn
    by_cases hsmall : n < 128
    · refine ⟨[n], ?_, by simp, by simpa using hsmall, by simp, by simp, Or.inl rfl⟩
      simp [sevenGroupsAux, hsmall]
    · have hrec : sevenGroupsAux (fuel + 1 + 1) n acc =
          sevenGroupsAux (fuel + 1) (n / 128) (n % 128 :: acc) := by
        simp [sevenGroupsAux, hsmall]
      have hdiv : n / 128 < 128 ^ (fuel + 1) := by
        have h1 : n < 128 ^ (fuel + 1) * 128 := by
          have : (128 : Nat) ^ (fuel + 1 + 1) = 128 ^ (fuel + 1) * 128 := by ring
          omega
        omega
      obtain ⟨ds1, heq, hne, hlt, hval, hlen, hlow⟩ := ih (n / 128) (n % 128 :: acc) hdiv
      refine ⟨ds1 ++ [n % 128], ?_, by simp, ?_, ?_, ?_, ?_⟩
      · rw [hrec, heq]
        simp
      · intro d hd
        simp only [List.mem_append, List.mem_singleton] at hd
        rcases hd with hd | hd
        · exact hlt d hd
        · omega
      · rw [List.foldl_append, hval]
        simp
        omega
      · simp
        omega
      · right
        simp only [List.length_append, List.length_singleton]
        rcases hlow with h1 | h1
        · have : ds1.length + 1 - 1 = 1 := by omega
          rw [this]
          simp
          omega
        · have hstep : (128 : Nat) ^ (ds1.length + 1 - 1) = 128 ^ (ds1.length - 1) * 128 := by
            have h2 : ds1.length + 1 - 1 = (ds1.length - 1) + 1 := by
              rcases ds1 with _ | ⟨a, t⟩
              · simp at hne
              · simp
            rw [h2]
            ring
          rw [hstep]
          calc 128 ^ (ds1.length - 1) * 128 ≤ n / 128 * 128 :=
                Nat.mul_le_mul_right 128 h1
            _ ≤ n := Nat.div_mul_le_self n 128

/-- The value of a digit run is below 128 to its length. -/
theorem foldl_digits_lt :
    ∀ (ds : List Nat) (a : Nat), (∀ d ∈ ds, d < 128) →
      List.foldl (fun x d => x * 128 + d) a ds < (a + 1) * 128 ^ ds.length := by
  intro ds
  induction ds with
  | nil => intro a _; simpa using Nat.lt_succ_self a
  | cons d tl ih =>
    intro a hlt
    simp only [List.foldl_cons, List.length_cons]
    have h1 := ih (a * 128 + d) (fun e he => hlt e (by simp [he]))
    have h2 : (a * 128 + d + 1) * 128 ^ tl.length ≤ (a + 1) * 128 ^ (tl.length + 1) := by
      have h3 : a * 128 + d + 1 ≤ (a + 1) * 128 := by
        have := hlt d (by simp)
        omega
      calc (a * 128 + d + 1) * 128 ^ tl.length ≤ (a + 1) * 128 * 128 ^ tl.length :=
            Nat.mul_le_mul_right _ h3
        _ = (a + 1) * 128 ^ (tl.length + 1) := by ring
    omega

/-- markCont preserves the byte count. -/
theorem markCont_length : ∀ ds : List Nat, (markCont ds).length = ds.length := by
  intro ds
  induction ds with
  | nil => rfl
  | cons d tl ih =>
    cases tl with
    | nil => rfl
    | cons e es =>
      have : markCont (d :: e :: es) = (d + 128) :: markCont (e :: es) := rfl
      rw [this]
      simpa using ih

/-- The shifted-or accumulator of read_varint agrees with base-128
accumulation while the value stays inside 64 bits. -/
theorem foldl_step_eq_arith :
    ∀ (ds : List Nat) (a : Nat), (∀ d ∈ ds, d < 128) →
      (a + 1) * 128 ^ ds.length ≤ U64 →
      List.foldl (fun x d => ((x <<< 7) % U64) ||| d) a ds =
        List.foldl (fun x d => x * 128 + d) a ds := by
  intro ds
  induction ds with
  | nil => intro a _ _; rfl
  | cons d tl ih =>
    intro a hlt hbound
    simp only [List.foldl_cons]
    have hd := hlt d (by simp)
    have hlen : (128 : Nat) ^ (d :: tl).length = 128 ^ tl.length * 128 := by
      simp only [List.length_cons]
      ring
    have ha128 : a * 128 < U64 := by
      have h1 : (a + 1) * (128 ^ tl.length * 128) ≤ U64 := by rw [← hlen]; exact hbound
      have h2 : a * 128 < (a + 1) * 128 := by omega
      have h3 : (a + 1) * 128 ≤ (a + 1) * (128 ^ tl.length * 128) := by
        have h4 : (128 : Nat) ≤ 128 ^ tl.length * 128 := by
          have := Nat.one_le_two_pow (n := 1)
          have h5 : (1 : Nat) ≤ 128 ^ tl.length := Nat.one_le_pow _ _ (by omega)
          omega
        exact Nat.mul_le_mul_left _ h4
      omega
    have hstep : ((a <<< 7) % U64) ||| d = a * 128 + d := by
      rw [Nat.shiftLeft_eq]
      norm_num
      rw [Nat.mod_eq_of_lt ha128]
      have : a * 128 = a * 2 ^ 7 := by norm_num
      rw [this, lor_mul_add (by omega)]
    rw [hstep]
    apply ih
    · intro e he
      exact hlt e (by simp [he])
    · have h6 : a * 128 + d + 1 ≤ (a + 1) * 128 := by omega
      have h7 : (a * 128 + d + 1) * 128 ^ tl.length ≤ (a + 1) * 128 * 128 ^ tl.length :=
        Nat.mul_le_mul_right _ h6
      have h8 : (a + 1) * 128 * 128 ^ tl.length = (a + 1) * 128 ^ (d :: tl).length := by
        rw [hlen]
        ring
      omega

/-- One unfolding step of the read_varint loop. -/
theorem rvGo_succ (data : List Nat) (pos fuel i value br : Nat) :
    rvGo data pos (fuel + 1) i value br =
      (if i == 8 then (((value <<< 8) % U64) ||| byteAt data (pos + i), br + 1)
      else
        if byteAt data (pos + i) &&& 128 == 0 then
          (((value <<< 7) % U64) ||| (byteAt data (pos + i) &&& 127), br + 1)
        else rvGo data pos fuel (i + 1)
          (((value <<< 7) % U64) ||| (byteAt data (pos + i) &&& 127)) (br + 1)) := rfl

/-- Decoding a continuation-marked digit run that ends with a clear high bit:
the loop consumes exactly the run and accumulates its digits. -/
theorem rvGo_marked (data : List Nat) (pos : Nat) :
    ∀ (ds : List Nat) (i value br : Nat),
      ds ≠ [] → (∀ d ∈ ds, d < 128) → i + ds.length ≤ 8 →
      (∀ j, j < ds.length → byteAt data (pos + i + j) = (markCont ds).getD j 0) →
      rvGo data pos (9 - i) i value br =
        (List.foldl (fun a d => ((a <<< 7) % U64) ||| d) value ds, br + ds.length) := by
  intro ds
  induction ds with
  | nil =>
    intro i v br hne
    exact absurd rfl hne
  | cons d tl ih =>
    intro i v br _ hlt hlen halign
    have hd : d < 128 := hlt d (by simp)
    have hi7 : i ≤ 7 := by
      simp only [List.length_cons] at hlen
      omega
    have hfuel : 9 - i = (8 - i) + 1 := by omega
    rw [hfuel, rvGo_succ, if_neg (by simp; omega)]
    cases tl with
    | nil =>
      have hb : byteAt data (pos + i) = d := by
        have := halign 0 (by simp)
        simpa [markCont] using this
      rw [hb, and_127, Nat.mod_eq_of_lt hd, and_128_low hd]
      simp
    | cons e es =>
      have hmc : markCont (d :: e :: es) = (d + 128) :: markCont (e :: es) := rfl
      have hb : byteAt data (pos + i) = d + 128 := by
        have := halign 0 (by simp)
        simpa [hmc] using this
      have h127 : (d + 128) &&& 127 = d := by
        rw [and_127]
        omega
      have h128 : ((d + 128) &&& 128 == 0) = false := by
        rw [and_128_high hd]
        simp
      rw [hb, h127, h128]
      simp only [Bool.false_eq_true, if_false]
      rw [show 8 - i = 9 - (i + 1) by omega]
      rw [ih (i + 1) (((v <<< 7) % U64) ||| d) (br + 1)
        (by simp) (fun x hx => hlt x (by simp [hx]))
        (by simp only [List.length_cons] at hlen ⊢; omega)
        ?_]
      · simp only [List.foldl_cons, List.length_cons]
        have : br + 1 + (e :: es).length = br + ((e :: es).length + 1) := by omega
        simp only [List.length_cons] at this ⊢
        rw [this]
      · intro j hj
        have harith : pos + (i + 1) + j = pos + i + (j + 1) := by omega
        rw [harith]
        have := halign (j + 1) (by simp only [List.length_cons] at hj ⊢; omega)
        rw [this, hmc]
        simp

/-- Decoding a fully continuation-marked run of 8 - i digits followed by the
9th byte: the loop consumes the run, then takes all 8 bits of the final byte. -/
theorem rvGo_allmarked (data : List Nat) (pos : Nat) :
    ∀ (gs : List Nat) (i value br : Nat),
      (∀ d ∈ gs, d < 128) → i + gs.length = 8 →
      (∀ j, j < gs.length → byteAt data (pos + i + j) = gs.getD j 0 + 128) →
      rvGo data pos (9 - i) i value br =
        ((((List.foldl (fun a d => ((a <<< 7) % U64) ||| d) value gs) <<< 8) % U64) |||
          byteAt data (pos + 8), br + gs.length + 1) := by
  intro gs
  induction gs with
  | nil =>
    intro i v br _ hlen _
    have hi : i = 8 := by simpa using hlen
    subst hi
    rw [show (9 - 8 : Nat) = 0 + 1 from rfl, rvGo_succ]
    simp
  | cons d tl ih =>
    intro i v br hlt hlen halign
    have hd : d < 128 := hlt d (by simp)
    have hi7 : i ≤ 7 := by
      simp only [List.length_cons] at hlen
      omega
    have hfuel : 9 - i = (8 - i) + 1 := by omega
    rw [hfuel, rvGo_succ, if_neg (by simp; omega)]
    have hb : byteAt data (pos + i) = d + 128 := by
      have := halign 0 (by simp)
      simpa using this
    have h127 : (d + 128) &&& 127 = d := by
      rw [and_127]
      omega
    have h128 : ((d + 128) &&& 128 == 0) = false := by
      rw [and_128_high hd]
      simp
    rw [hb, h127, h128]
    simp only [Bool.false_eq_true, if_false]
    rw [show 8 - i = 9 - (i + 1) by omega]
    rw [ih (i + 1) (((v <<< 7) % U64) ||| d) (br + 1)
      (fun x hx => hlt x (by simp [hx]))
      (by simp only [List.length_cons] at hlen ⊢; omega)
      ?_]
    · simp only [List.foldl_cons, List.length_cons]
      have : br + 1 + tl.length + 1 = br + (tl.length + 1) + 1 := by omega
      rw [this]
    · intro j hj
      have harith : pos + (i + 1) + j = pos + i + (j + 1) := by omega
      rw [harith]
      have := halign (j + 1) (by simp only [List.length_cons] at hj ⊢; omega)
      rw [this]
      simp

/-- The fixed eight groups are 7-bit values. -/
theorem fixedGroups8_lt (n : Nat) : ∀ d ∈ fixedGroups8 n, d < 128 := by
  intro d hd
  simp only [fixedGroups8, List.mem_cons, List.not_mem_nil, or_false] at hd
  rcases hd with h | h | h | h | h | h | h | h <;> subst h <;> omega

/-- Recombining the fixed eight groups gives back the value. -/
theorem fixedGroups8_val {n : Nat} (h : n < 2 ^ 56) :
    List.foldl (fun a d => a * 128 + d) 0 (fixedGroups8 n) = n := by
  simp only [fixedGroups8, List.foldl_cons, List.foldl_nil]
  norm_num
  omega

/-- C6: encoding any unsigned 64-bit value as a SQLite varint (1 to 9 bytes;
for bytes 1..8 the high bit is a continuation flag and the low 7 bits carry
data; a 9th byte carries all 8 bits) and then decoding with read_varint at
the start of the encoding yields exactly the value, and the reported consumed
byte count equals the encoding length. -/
theorem c6_varint_roundtrip (x : Nat) (hx : x < 2 ^ 64) :
    read_varint (encodeVarint x) 0 = (x, (encodeVarint x).length)
    ∧ 1 ≤ (encodeVarint x).length ∧ (encodeVarint x).length ≤ 9 := by
  by_cases hsmall : x < 2 ^ 56
  · have hx9 : x < 128 ^ (8 + 1) := by
      have : (128 : Nat) ^ (8 + 1) = 2 ^ 63 := by norm_num
      omega
    obtain ⟨ds, heq, hne, hlt, hval, hlen9, hlow⟩ := sevenGroupsAux_spec 8 x [] hx9
    have hsg : sevenGroups x = ds := by
      unfold sevenGroups
      rw [show (9 : Nat) = 8 + 1 from rfl, heq]
      simp
    have hlen8 : ds.length ≤ 8 := by
      rcases hlow with h1 | h1
      · omega
      · by_contra hgt
        push_neg at hgt
        have h2 : (128 : Nat) ^ 8 ≤ 128 ^ (ds.length - 1) :=
          Nat.pow_le_pow_right (by omega) (by omega)
        have h3 : (128 : Nat) ^ 8 = 2 ^ 56 := by norm_num
        omega
    have henc : encodeVarint x = markCont ds := by
      unfold encodeVarint
      rw [if_pos hsmall, hsg]
    have hdec := rvGo_marked (markCont ds) 0 ds 0 0 0 hne hlt (by omega)
      (fun j hj => by simp [byteAt])
    have hbound : (0 + 1) * 128 ^ ds.length ≤ U64 := by
      have h2 : (128 : Nat) ^ ds.length ≤ 128 ^ 8 := Nat.pow_le_pow_right (by omega) hlen8
      have h3 : (128 : Nat) ^ 8 = 2 ^ 56 := by norm_num
      have h4 : U64 = 2 ^ 64 := rfl
      have h5 : (2 : Nat) ^ 56 ≤ 2 ^ 64 := by norm_num
      omega
    have hfold : List.foldl (fun a d => ((a <<< 7) % U64) ||| d) 0 ds = x := by
      rw [foldl_step_eq_arith ds 0 hlt hbound, hval]
    refine ⟨?_, ?_, ?_⟩
    · rw [show read_varint (encodeVarint x) 0 = rvGo (encodeVarint x) 0 (9 - 0) 0 0 0 from rfl]
      rw [henc, hdec, hfold, markCont_length]
      simp
    · rw [henc, markCont_length]
      rcases ds with _ | _
      · simp at hne
      · simp
    · rw [henc, markCont_length]
      omega
  · push_neg at hsmall
    have hhv : x >>> 8 = x / 256 := by
      rw [Nat.shiftRight_eq_div_pow]
    have hhi56 : x >>> 8 < 2 ^ 56 := by
      rw [hhv]
      omega
    have henc : encodeVarint x =
        (fixedGroups8 (x >>> 8)).map (fun d => d + 128) ++ [x % 256] := by
      unfold encodeVarint
      rw [if_neg (by omega)]
    have hglt := fixedGroups8_lt (x >>> 8)
    have hglen : (fixedGroups8 (x >>> 8)).length = 8 := by simp [fixedGroups8]
    have hmaplen : ((fixedGroups8 (x >>> 8)).map (fun d => d + 128)).length = 8 := by
      simp [hglen]
    have halign : ∀ j, j < (fixedGroups8 (x >>> 8)).length →
        byteAt (encodeVarint x) (0 + 0 + j) = (fixedGroups8 (x >>> 8)).getD j 0 + 128 := by
      intro j hj
      rw [henc]
      simp only [byteAt, Nat.zero_add, List.getD_eq_getElem?_getD]
      rw [List.getElem?_append_left (by rw [hmaplen]; omega)]
      rw [List.getElem?_map]
      rw [List.getElem?_eq_getElem hj]
      simp
    have h9th : byteAt (encodeVarint x) (0 + 8) = x % 256 := by
      rw [henc]
      simp only [byteAt, Nat.zero_add, List.getD_eq_getElem?_getD]
      rw [List.getElem?_append_right (by rw [hmaplen])]
      simp [hmaplen]
    have hdec := rvGo_allmarked (encodeVarint x) 0 (fixedGroups8 (x >>> 8)) 0 0 0 hglt
      (by rw [hglen]) halign
    have hbound : (0 + 1) * 128 ^ (fixedGroups8 (x >>> 8)).length ≤ U64 := by
      rw [hglen]
      have h3 : (128 : Nat) ^ 8 = 2 ^ 56 := by norm_num
      have h4 : U64 = 2 ^ 64 := rfl
      have h5 : (2 : Nat) ^ 56 ≤ 2 ^ 64 := by norm_num
      omega
    have hfold : List.foldl (fun a d => ((a <<< 7) % U64) ||| d) 0 (fixedGroups8 (x >>> 8)) =
        x >>> 8 := by
      rw [foldl_step_eq_arith _ 0 hglt hbound, fixedGroups8_val hhi56]
    have hfinal : (((x >>> 8) <<< 8) % U64) ||| (x % 256) = x := by
      rw [hhv, Nat.shiftLeft_eq]
      have h1 : x / 256 * 2 ^ 8 < U64 := by
        have : x / 256 * 2 ^ 8 ≤ x := by
          have := Nat.div_mul_le_self x 256
          norm_num
          omega
        have h4 : U64 = 2 ^ 64 := rfl
        omega
      rw [Nat.mod_eq_of_lt h1, lor_mul_add (by omega)]
      omega
    have hlen9 : (encodeVarint x).length = 9 := by
      rw [henc]
      simp [hglen]
    refine ⟨?_, by omega, by omega⟩
    rw [show read_varint (encodeVarint x) 0 = rvGo (encodeVarint x) 0 (9 - 0) 0 0 0 from rfl]
    rw [hdec, hfold, h9th, hfinal, hglen, hlen9]

/-- C6 witness: the maximal 64-bit value round-trips through the 9-byte
encoding, and a small value through the 2-byte encoding. -/
theorem c6_witness :
    ((2 ^ 64 - 1 : Nat) < 2 ^ 64 ∧
      read_varint (encodeVarint (2 ^ 64 - 1)) 0 = (2 ^ 64 - 1, (encodeVarint (2 ^ 64 - 1)).length)) ∧
      read_varint (encodeVarint 300) 0 = (300, (encodeVarint 300).length) :=
  ⟨⟨by norm_num, (c6_varint_roundtrip (2 ^ 64 - 1) (by norm_num)).1⟩,
    (c6_varint_roundtrip 300 (by norm_num)).1⟩
